import Mathlib

/-
Verification of the AnyBURL-Replication repository against its
natural-language specification.

The Python sources are shallowly embedded: dataclasses become structures,
dict-based state becomes association lists, Python sets become `Finset`s or
deduplicated lists, and every call to the process-global PRNG is replaced by
an explicit oracle `ρ : Nat → Nat` together with a threaded consumption
counter, so that each embedded function is a pure function of its inputs and
of the oracle.  Floating-point confidences are modelled as rationals.
Exceptions are modelled with `Except PyErr`.
-/

set_option maxHeartbeats 1000000

/-
Embedding of src/algorithm/knowledge_graph/Triple.py.

`@dataclass(frozen=True)` generates `__eq__` and `__hash__` from the tuple of
fields that have `compare=True`; the `reversed` field is declared with
`field(default=False, compare=False)`, so it is excluded from both.
-/

structure Triple where
  subject : String
  relation : String
  object : String
  reversed : Bool := false
deriving DecidableEq, Inhabited

/-- Dataclass equality of the base `Triple`: the tuple of compare-enabled
fields is `(subject, relation, object)`; `reversed` has `compare=False`. -/
def Triple.dataclass_eq (t u : Triple) : Bool :=
  t.subject == u.subject && t.relation == u.relation && t.object == u.object

/-- The tuple a frozen dataclass hashes: exactly the compare-enabled fields,
in declaration order.  For the base `Triple` this is `(subject, relation,
object)`. -/
def Triple.hash_key (t : Triple) : String × String × String :=
  (t.subject, t.relation, t.object)

/-- `Triple.flipped` from src/algorithm/knowledge_graph/Triple.py: swap
subject and object and toggle the `reversed` flag. -/
def Triple.flipped (t : Triple) : Triple :=
  { subject := t.object, relation := t.relation, object := t.subject,
    reversed := !t.reversed }

/-- `Triple.from_tuple`. -/
def Triple.from_tuple (s r o : String) : Triple :=
  { subject := s, relation := r, object := o, reversed := false }

/-
Embedding of src/extension/knowledge_graph/Triple.py (the temporal variant).

Here `timestamp` is an ordinary dataclass field (no `compare=False`), so it
participates in `__eq__` and `__hash__`; `reversed` again has
`compare=False`.  The timestamp, a Python float, is modelled as a rational.
-/

structure Extension.Triple where
  subject : String
  relation : String
  object : String
  timestamp : Option ℚ := none
  reversed : Bool := false
deriving DecidableEq, Inhabited

/-- Dataclass equality of the temporal `Triple`: compares `(subject,
relation, object, timestamp)`; only `reversed` is excluded. -/
def Extension.Triple.dataclass_eq (t u : Extension.Triple) : Bool :=
  t.subject == u.subject && t.relation == u.relation && t.object == u.object
    && t.timestamp == u.timestamp

/-- The hash tuple of the temporal `Triple`: the compare-enabled fields,
which include the timestamp. -/
def Extension.Triple.hash_key (t : Extension.Triple) :
    String × String × String × Option ℚ :=
  (t.subject, t.relation, t.object, t.timestamp)

/-- C3, counterexample.  Two temporal triples that agree on subject,
relation and object but carry different timestamps are *not* equal under the
generated dataclass equality, and their hash tuples differ; the claim says
the timestamp should not participate in identity. -/
theorem C3_counterexample :
    Extension.Triple.dataclass_eq
        { subject := "a", relation := "r", object := "b",
          timestamp := some 1, reversed := false }
        { subject := "a", relation := "r", object := "b",
          timestamp := some 2, reversed := false } = false
      ∧ Extension.Triple.hash_key
          { subject := "a", relation := "r", object := "b",
            timestamp := some 1, reversed := false }
        ≠ Extension.Triple.hash_key
          { subject := "a", relation := "r", object := "b",
            timestamp := some 2, reversed := false } := by
  constructor
  · decide
  · intro h
    simp [Extension.Triple.hash_key] at h

/-- C3, amended.  Base `Triple` equality and hashing use exactly `(subject,
relation, object)` — the `reversed` flag never participates — while in the
temporal variant equality and hashing use `(subject, relation, object,
timestamp)`: the timestamp *does* participate in identity, and only
`reversed` is excluded. -/
theorem C3_amended :
    (∀ t u : Triple,
      (Triple.dataclass_eq t u = true
          ↔ t.subject = u.subject ∧ t.relation = u.relation
              ∧ t.object = u.object)
        ∧ (Triple.hash_key t = Triple.hash_key u
            ↔ t.subject = u.subject ∧ t.relation = u.relation
                ∧ t.object = u.object))
      ∧ (∀ t u : Extension.Triple,
        (Extension.Triple.dataclass_eq t u = true
            ↔ t.subject = u.subject ∧ t.relation = u.relation
                ∧ t.object = u.object ∧ t.timestamp = u.timestamp)
          ∧ (Extension.Triple.hash_key t = Extension.Triple.hash_key u
              ↔ t.subject = u.subject ∧ t.relation = u.relation
                  ∧ t.object = u.object ∧ t.timestamp = u.timestamp)) := by
  refine ⟨fun t u => ⟨?_, ?_⟩, fun t u => ⟨?_, ?_⟩⟩
  · simp [Triple.dataclass_eq, and_assoc]
  · simp [Triple.hash_key, Prod.ext_iff]
  · simp [Extension.Triple.dataclass_eq, and_assoc]
  · simp [Extension.Triple.hash_key, Prod.ext_iff, and_assoc]

/-
Embedding of src/algorithm/knowledge_graph/KnowledgeGraph.py.

The constructor folds the input triples into `outgoing`, `incoming`, `adj`,
`adj_inv`; since each index is the obvious projection of the stored triple
list (appends happen in input order, duplicates collapse in the adjacency
sets), the indexes are embedded as the corresponding projections.  A Python
set is represented as a first-occurrence deduplicated list: membership
agrees with the set, and the list fixes one enumeration order (Python's set
iteration order is unspecified).
-/

/-- First-occurrence deduplication with an accumulator of already-seen
keys. -/
def firstDedupAux : List String → List String → List String
  | [], _ => []
  | x :: xs, seen =>
    if x ∈ seen then firstDedupAux xs seen
    else x :: firstDedupAux xs (x :: seen)

/-- First-occurrence deduplication, the order `dict.fromkeys` and insertion
into a Python set preserve. -/
def firstDedup (l : List String) : List String :=
  firstDedupAux l []

theorem mem_firstDedupAux {a : String} :
    ∀ (l seen : List String), a ∈ firstDedupAux l seen ↔ (a ∈ l ∧ a ∉ seen) := by
  intro l
  induction l with
  | nil =>
    intro seen
    simp [firstDedupAux]
  | cons x xs ih =>
    intro seen
    rw [firstDedupAux]
    by_cases hx : x ∈ seen
    · rw [if_pos hx, ih]
      constructor
      · intro hpair
        exact ⟨List.mem_cons_of_mem _ hpair.1, hpair.2⟩
      · intro hpair
        rcases List.mem_cons.mp hpair.1 with rfl | hmem
        · exact absurd hx hpair.2
        · exact ⟨hmem, hpair.2⟩
    · rw [if_neg hx]
      constructor
      · intro hmem
        rcases List.mem_cons.mp hmem with rfl | hmem2
        · exact ⟨List.mem_cons_self _ _, hx⟩
        · obtain ⟨h1, h2⟩ := (ih (x :: seen)).mp hmem2
          exact ⟨List.mem_cons_of_mem _ h1,
            fun hc => h2 (List.mem_cons_of_mem _ hc)⟩
      · intro hpair
        rcases List.mem_cons.mp hpair.1 with rfl | hmem
        · exact List.mem_cons_self _ _
        · by_cases hax : a = x
          · subst hax
            exact List.mem_cons_self _ _
          · refine List.mem_cons_of_mem _ ((ih (x :: seen)).mpr ⟨hmem, ?_⟩)
            intro hc
            rcases List.mem_cons.mp hc with hres | hres
            · exact hax hres
            · exact hpair.2 hres

theorem mem_firstDedup {a : String} {l : List String} :
    a ∈ firstDedup l ↔ a ∈ l := by
  unfold firstDedup
  rw [mem_firstDedupAux]
  simp

theorem nodup_firstDedupAux :
    ∀ (l seen : List String), (firstDedupAux l seen).Nodup := by
  intro l
  induction l with
  | nil =>
    intro seen
    simp [firstDedupAux]
  | cons x xs ih =>
    intro seen
    rw [firstDedupAux]
    by_cases hx : x ∈ seen
    · rw [if_pos hx]
      exact ih seen
    · rw [if_neg hx]
      refine List.nodup_cons.mpr ⟨?_, ih (x :: seen)⟩
      rw [mem_firstDedupAux]
      simp

theorem nodup_firstDedup (l : List String) : (firstDedup l).Nodup :=
  nodup_firstDedupAux l []

structure KnowledgeGraph where
  triples : List Triple
deriving DecidableEq

/-- `outgoing[s]`: the `(relation, object)` pairs of edges leaving `s`, in
input order. -/
def KnowledgeGraph.outgoing (kg : KnowledgeGraph) (s : String) :
    List (String × String) :=
  (kg.triples.filter (fun t => t.subject == s)).map (fun t => (t.relation, t.object))

/-- `incoming[o]`: the `(relation, subject)` pairs of edges entering `o`, in
input order. -/
def KnowledgeGraph.incoming (kg : KnowledgeGraph) (o : String) :
    List (String × String) :=
  (kg.triples.filter (fun t => t.object == o)).map (fun t => (t.relation, t.subject))

/-- `adj[r][s]`: the set of objects reachable from `s` over `r` (Python set,
modelled as a first-occurrence deduplicated list). -/
def KnowledgeGraph.adj (kg : KnowledgeGraph) (r s : String) : List String :=
  firstDedup ((kg.triples.filter (fun t => t.relation == r && t.subject == s)).map Triple.object)

/-- `adj_inv[r][o]`: the set of subjects with an `r`-edge into `o`. -/
def KnowledgeGraph.adj_inv (kg : KnowledgeGraph) (r o : String) : List String :=
  firstDedup ((kg.triples.filter (fun t => t.relation == r && t.object == o)).map Triple.subject)

/-- `adj[r].keys()`: the subjects having at least one outgoing `r`-edge. -/
def KnowledgeGraph.adj_keys (kg : KnowledgeGraph) (r : String) : List String :=
  firstDedup ((kg.triples.filter (fun t => t.relation == r)).map Triple.subject)

/-- `has_fact(s, r, o)`: `o in self.adj[r][s]`. -/
def KnowledgeGraph.has_fact (kg : KnowledgeGraph) (s r o : String) : Bool :=
  (kg.adj r s).contains o

/-
Embedding of src/algorithm/path_sampling/BottomRule.py.
-/

structure BottomRule where
  head : Triple
  start_from : String
  body : List Triple := []
  steps : List String := []
  is_cyclical : Bool := false
  visited : Finset String
deriving DecidableEq

instance : Inhabited BottomRule :=
  ⟨{ head := default, start_from := "subject", visited := ∅ }⟩

/-- The dataclass constructor plus `__post_init__`, which initialises
`visited` with the two head entities. -/
def mk_bottom_rule (head : Triple) (start_from : String) : BottomRule :=
  { head := head, start_from := start_from,
    visited := {head.subject, head.object} }

/-- `BottomRule.add_triple`. -/
def BottomRule.add_triple (br : BottomRule) (triple : Triple) (step : String) :
    BottomRule :=
  { br with body := br.body ++ [triple], steps := br.steps ++ [step] }

/-- `BottomRule.get_chained`: the head is flipped unless the walk starts at
the object; each body edge is flipped when its step was backward. -/
def BottomRule.get_chained (br : BottomRule) :
    (String × String × String) × List (String × String × String) :=
  let head_for_chain :=
    if br.start_from = "object" then
      (br.head.subject, br.head.relation, br.head.object)
    else
      ((br.head.flipped).subject, (br.head.flipped).relation, (br.head.flipped).object)
  let body_for_chain :=
    (br.steps.zip br.body).map (fun p =>
      if p.1 = "forward" then (p.2.subject, p.2.relation, p.2.object)
      else ((p.2.flipped).subject, (p.2.flipped).relation, (p.2.flipped).object))
  (head_for_chain, body_for_chain)

/-- `BottomRule.get_flattened_nodes`: both chained-head entities followed by
both entities of each chained body atom, duplicates preserved. -/
def BottomRule.get_flattened_nodes (br : BottomRule) : List String :=
  let chained := br.get_chained
  [chained.1.1, chained.1.2.2] ++ chained.2.flatMap (fun a => [a.1, a.2.2])

/-
Embedding of src/replication/path_sampling/sampling.py.

Python exceptions are modelled with `Except PyErr`; every `random.*` call
reads the oracle `ρ` at the next counter value.
-/

inductive PyErr where
  | valueError : String → PyErr
  | indexError : String → PyErr
deriving DecidableEq

deriving instance DecidableEq for Except

/-- `random.choice` on a non-empty list, driven by the oracle. -/
def choose (ρ : Nat → Nat) (t : Nat) (l : List α) (h : l ≠ []) : α :=
  l.get ⟨ρ t % l.length, Nat.mod_lt _ (List.length_pos.mpr h)⟩

theorem choose_mem (ρ : Nat → Nat) (t : Nat) (l : List α) (h : l ≠ []) :
    choose ρ t l h ∈ l :=
  List.get_mem _ _ _

/-- `pick_step_direction`: a fair coin for `"both"`, fixed directions for
the two `-only` modes, `ValueError` otherwise.  Returns the direction and
the new oracle counter. -/
def pick_step_direction (direction_allowed : String) (ρ : Nat → Nat) (t : Nat) :
    Except PyErr (String × Nat) :=
  if direction_allowed = "both" then
    .ok ((if ρ t % 2 = 0 then "forward" else "backward"), t + 1)
  else if direction_allowed = "forward-only" then .ok ("forward", t)
  else if direction_allowed = "backward-only" then .ok ("backward", t)
  else .error (.valueError ("Unsupported direction_allowed"))

/-- `get_possible_moves`: all edges at `current_node` in the chosen
direction, re-packed through `Triple.from_tuple`. -/
def get_possible_moves (kg : KnowledgeGraph) (current_node : String)
    (step_direction : String) : List Triple :=
  if step_direction = "forward" then
    (kg.outgoing current_node).map (fun p => Triple.from_tuple current_node p.1 p.2)
  else
    (kg.incoming current_node).map (fun p => Triple.from_tuple p.2 p.1 current_node)

/-- `filter_valid_moves`: a move to an already-visited node survives only on
the last step and only when it closes the cycle at the opposite head
endpoint. -/
def filter_valid_moves (bottom_rule : BottomRule) (possible_moves : List Triple)
    (step_direction : String) (is_last_step : Bool) : List Triple :=
  possible_moves.filter (fun move =>
    if step_direction = "forward" then
      if move.object ∈ bottom_rule.visited then
        is_last_step
          && ((bottom_rule.start_from == "subject"
                && move.object == bottom_rule.head.object)
            || (bottom_rule.start_from == "object"
                && move.object == bottom_rule.head.subject))
      else true
    else
      if move.subject ∈ bottom_rule.visited then
        is_last_step
          && ((bottom_rule.start_from == "subject"
                && move.subject == bottom_rule.head.object)
            || (bottom_rule.start_from == "object"
                && move.subject == bottom_rule.head.subject))
      else true)

/-- The step loop of `sample_bottom_rule` (step 3), followed by the
cyclicity check (step 4).  `remaining` counts the steps still to take, so
`is_last_step` corresponds to `step_id == n - 2`. -/
def sample_walk (kg : KnowledgeGraph) (direction_allowed : String) (ρ : Nat → Nat) :
    Nat → Nat → String → BottomRule → Except PyErr (Option BottomRule)
  | 0, _t, current_node, bottom_rule =>
      .ok (some { bottom_rule with
        is_cyclical :=
          current_node == bottom_rule.head.object
            || current_node == bottom_rule.head.subject })
  | remaining + 1, t, current_node, bottom_rule =>
      match pick_step_direction direction_allowed ρ t with
      | .error e => .error e
      | .ok (step_direction, t1) =>
        let possible_moves := get_possible_moves kg current_node step_direction
        if possible_moves = [] then .ok none
        else
          let is_last_step : Bool := remaining == 0
          let filtered_moves :=
            filter_valid_moves bottom_rule possible_moves step_direction is_last_step
          if hfm : filtered_moves = [] then .ok none
          else
            let triple := choose ρ t1 filtered_moves hfm
            if step_direction = "forward" then
              sample_walk kg direction_allowed ρ remaining (t1 + 1) triple.object
                { bottom_rule.add_triple triple step_direction with
                    visited := insert triple.object bottom_rule.visited }
            else
              sample_walk kg direction_allowed ρ remaining (t1 + 1) triple.subject
                { bottom_rule.add_triple triple step_direction with
                    visited := insert triple.subject bottom_rule.visited }

/-- `sample_bottom_rule(kg, n, direction_allowed)`.  `n` is a Python `int`,
hence `Int`; `random.choice` on the empty triple list raises `IndexError`. -/
def sample_bottom_rule (kg : KnowledgeGraph) (n : Int) (direction_allowed : String)
    (ρ : Nat → Nat) : Except PyErr (Option BottomRule) :=
  if n < 1 then .error (.valueError ("n must be >= greater than or equal to 1"))
  else
    match htr : kg.triples with
    | [] => .error (.indexError ("Cannot choose from an empty sequence"))
    | _ :: _ =>
      let head_triple := choose ρ 0 kg.triples (by simp [htr])
      let initial_start_node :=
        choose ρ 1 [head_triple.subject, head_triple.object] (by simp)
      let start_from :=
        if initial_start_node = head_triple.subject then "subject" else "object"
      let bottom_rule := mk_bottom_rule head_triple start_from
      if n = 1 then .ok (some bottom_rule)
      else sample_walk kg direction_allowed ρ (n - 1).toNat 2 initial_start_node bottom_rule

/-
Derived views of a sampled walk, used to state C4 and C6.
-/

/-- The far endpoint reached by each body step, in walk order: the node the
walk "adds" at that step. -/
def added_nodes (steps : List String) (body : List Triple) : List String :=
  (steps.zip body).map (fun p => if p.1 = "forward" then p.2.object else p.2.subject)

/-- The nodes added by the walk of a bottom rule. -/
def BottomRule.added (br : BottomRule) : List String :=
  added_nodes br.steps br.body

/-- The head endpoint opposite to the endpoint the walk started from. -/
def opposite_endpoint (br : BottomRule) : String :=
  if br.start_from = "subject" then br.head.object else br.head.subject

/-- The final `current_node` of the walk: the far endpoint of the last step,
or the start endpoint when the walk took no steps. -/
def walk_final_node (br : BottomRule) : String :=
  (br.added.getLast?).getD
    (if br.start_from = "subject" then br.head.subject else br.head.object)

/-- The cycle-closing exception of `filter_valid_moves`: a visited node may
be re-entered only when it is the head endpoint opposite the start. -/
def cycle_exception (br : BottomRule) (x : String) : Prop :=
  (br.start_from = "subject" ∧ x = br.head.object)
    ∨ (br.start_from = "object" ∧ x = br.head.subject)

/-- A list of walk nodes none of which repeats or touches a head endpoint. -/
def fresh_nodes (br : BottomRule) (L : List String) : Prop :=
  L.Nodup ∧ ∀ x ∈ L, x ≠ br.head.subject ∧ x ≠ br.head.object

/-- The added nodes of a finished walk are fresh, except that the very last
one may close the cycle at the opposite head endpoint. -/
def walk_ok_nodes (br : BottomRule) : Prop :=
  fresh_nodes br br.added
    ∨ ∃ L₀ w, br.added = L₀ ++ [w] ∧ fresh_nodes br L₀ ∧ cycle_exception br w

theorem added_nodes_append {steps : List String} {body : List Triple}
    (h : steps.length = body.length) (dir : String) (tr : Triple) :
    added_nodes (steps ++ [dir]) (body ++ [tr])
      = added_nodes steps body
          ++ [if dir = "forward" then tr.object else tr.subject] := by
  unfold added_nodes
  rw [List.zip_append h, List.map_append]
  rfl

theorem mem_get_possible_moves {kg : KnowledgeGraph} {cur dir : String}
    {move : Triple} (h : move ∈ get_possible_moves kg cur dir) :
    (dir = "forward" → move.subject = cur) ∧ (dir ≠ "forward" → move.object = cur) := by
  unfold get_possible_moves at h
  by_cases hdir : dir = "forward" <;> simp [hdir] at h ⊢
  · obtain ⟨p, q, _, hp⟩ := h
    rw [← hp]
    rfl
  · obtain ⟨p, q, _, hp⟩ := h
    rw [← hp]
    rfl

theorem mem_filter_valid_moves {br : BottomRule} {moves : List Triple}
    {dir : String} {last : Bool} {move : Triple}
    (h : move ∈ filter_valid_moves br moves dir last) :
    move ∈ moves
      ∧ ((if dir = "forward" then move.object else move.subject) ∉ br.visited
          ∨ (last = true
              ∧ cycle_exception br
                  (if dir = "forward" then move.object else move.subject))) := by
  unfold filter_valid_moves at h
  rw [List.mem_filter] at h
  obtain ⟨hmem, hp⟩ := h
  refine ⟨hmem, ?_⟩
  by_cases hdir : dir = "forward"
  · simp only [hdir, if_true] at hp ⊢
    by_cases hvis : move.object ∈ br.visited
    · simp only [hvis, if_true, Bool.and_eq_true, Bool.or_eq_true,
        Bool.and_eq_true, beq_iff_eq] at hp
      exact Or.inr ⟨hp.1, by simpa [cycle_exception] using hp.2⟩
    · exact Or.inl hvis
  · simp only [hdir, if_false] at hp ⊢
    by_cases hvis : move.subject ∈ br.visited
    · simp only [hvis, if_true, Bool.and_eq_true, Bool.or_eq_true,
        Bool.and_eq_true, beq_iff_eq] at hp
      exact Or.inr ⟨hp.1, by simpa [cycle_exception] using hp.2⟩
    · exact Or.inl hvis

theorem fresh_nodes_append {br : BottomRule} {L : List String} {w : String}
    (hf : fresh_nodes br L) (hw1 : w ∉ L) (hw2 : w ≠ br.head.subject)
    (hw3 : w ≠ br.head.object) : fresh_nodes br (L ++ [w]) := by
  obtain ⟨hnd, hall⟩ := hf
  constructor
  · simp [List.nodup_append, hnd, hw1]
  · intro x hx
    rcases List.mem_append.mp hx with hmem | hmem
    · exact hall x hmem
    · simp only [List.mem_singleton] at hmem
      subst hmem
      exact ⟨hw2, hw3⟩

theorem sample_walk_spec (kg : KnowledgeGraph) (d : String) (ρ : Nat → Nat) :
    ∀ (remaining t : Nat) (current : String) (br br' : BottomRule),
    sample_walk kg d ρ remaining t current br = .ok (some br') →
    br.steps.length = br.body.length →
    br.visited = insert br.head.subject (insert br.head.object br.added.toFinset) →
    current ∈ br.visited →
    fresh_nodes br br.added →
    (∀ tr ∈ br.body, tr.subject ∈ br.visited ∧ tr.object ∈ br.visited) →
    br'.head = br.head ∧ br'.start_from = br.start_from
      ∧ br'.body.length = br.body.length + remaining
      ∧ br'.steps.length = br.steps.length + remaining
      ∧ br'.visited
          = insert br.head.subject (insert br.head.object br'.added.toFinset)
      ∧ (∀ tr ∈ br'.body, tr.subject ∈ br'.visited ∧ tr.object ∈ br'.visited)
      ∧ walk_ok_nodes br'
      ∧ ∃ fcur,
          br'.is_cyclical = (fcur == br.head.object || fcur == br.head.subject)
          ∧ ((remaining = 0 ∧ fcur = current)
              ∨ (1 ≤ remaining ∧ br'.added.getLast? = some fcur
                  ∧ ((fcur ≠ br.head.subject ∧ fcur ≠ br.head.object)
                      ∨ cycle_exception br fcur))) := by
  intro remaining
  induction remaining with
  | zero =>
    intro t current br br' h hlen hvis hcur hfresh hbody
    simp only [sample_walk, Except.ok.injEq, Option.some.injEq] at h
    subst h
    refine ⟨rfl, rfl, by simp, by simp, hvis, hbody, Or.inl hfresh, current, rfl, ?_⟩
    exact Or.inl ⟨rfl, rfl⟩
  | succ r ih =>
    intro t current br br' h hlen hvis hcur hfresh hbody
    rw [sample_walk] at h
    cases hpick : pick_step_direction d ρ t with
    | error e => rw [hpick] at h; exact absurd h (by simp)
    | ok pr =>
      obtain ⟨dir, t1⟩ := pr
      rw [hpick] at h
      simp only at h
      by_cases hpm : get_possible_moves kg current dir = []
      · rw [if_pos hpm] at h
        exact absurd h (by simp)
      · rw [if_neg hpm] at h
        by_cases hfm :
            filter_valid_moves br (get_possible_moves kg current dir) dir (r == 0) = []
        · rw [dif_pos hfm] at h
          exact absurd h (by simp)
        · rw [dif_neg hfm] at h
          have htrip_mem := choose_mem ρ t1 _ hfm
          have hmem := mem_filter_valid_moves htrip_mem
          have hnear := mem_get_possible_moves hmem.1
          by_cases hdirf : dir = "forward"
          · -- forward step: the far endpoint is the chosen triple's object
            subst hdirf
            rw [if_pos rfl] at h
            set triple :=
              choose ρ t1
                (filter_valid_moves br (get_possible_moves kg current "forward")
                  "forward" (r == 0)) hfm with htrip
            have hfar_mem : triple.object ∉ br.visited
                ∨ ((r == 0) = true ∧ cycle_exception br triple.object) := by
              simpa using hmem.2
            have hnear_eq : triple.subject = current := hnear.1 rfl
            set br₂ : BottomRule :=
              { br.add_triple triple "forward" with
                  visited := insert triple.object br.visited } with hbr2
            have hb2body : br₂.body = br.body ++ [triple] := rfl
            have hb2steps : br₂.steps = br.steps ++ ["forward"] := rfl
            have hb2vis : br₂.visited = insert triple.object br.visited := rfl
            have hb2added : br₂.added = br.added ++ [triple.object] := by
              show added_nodes (br.steps ++ ["forward"]) (br.body ++ [triple]) = _
              rw [added_nodes_append hlen]
              simp [BottomRule.added]
            have hvis2 : br₂.visited
                = insert br.head.subject
                    (insert br.head.object br₂.added.toFinset) := by
              rw [hb2vis, hvis, hb2added]
              ext x
              simp only [Finset.mem_insert, List.toFinset_append, Finset.mem_union,
                List.mem_toFinset, List.toFinset_cons, List.toFinset_nil,
                insert_emptyc_eq, Finset.mem_singleton]
              tauto
            have hsub : br.visited ⊆ br₂.visited := by
              rw [hb2vis]
              exact Finset.subset_insert _ _
            have hbody2 : ∀ tr ∈ br₂.body,
                tr.subject ∈ br₂.visited ∧ tr.object ∈ br₂.visited := by
              intro tr htr
              rw [hb2body] at htr
              rcases List.mem_append.mp htr with hmem2 | hmem2
              · exact ⟨hsub (hbody tr hmem2).1, hsub (hbody tr hmem2).2⟩
              · simp only [List.mem_singleton] at hmem2
                subst hmem2
                refine ⟨?_, ?_⟩
                · rw [hnear_eq]; exact hsub hcur
                · rw [hb2vis]; exact Finset.mem_insert_self _ _
            cases r with
            | zero =>
              simp only [sample_walk, Except.ok.injEq, Option.some.injEq] at h
              have hhead3 : br'.head = br.head := by rw [← h]; rfl
              have hsf3 : br'.start_from = br.start_from := by rw [← h]; rfl
              have hbody3 : br'.body = br.body ++ [triple] := by
                rw [← h]; exact hb2body
              have hsteps3 : br'.steps = br.steps ++ ["forward"] := by
                rw [← h]; exact hb2steps
              have hadded3 : br'.added = br.added ++ [triple.object] := by
                rw [← h]; exact hb2added
              have hvis3 : br'.visited = br₂.visited := by rw [← h]
              have hcyc3 : br'.is_cyclical
                  = (triple.object == br.head.object
                      || triple.object == br.head.subject) := by
                rw [← h]; rfl
              refine ⟨hhead3, hsf3, by rw [hbody3]; simp, by rw [hsteps3]; simp,
                ?_, ?_, ?_, triple.object, hcyc3, Or.inr ⟨le_refl 1, ?_, ?_⟩⟩
              · rw [hvis3, hvis2, hb2added, hadded3]
              · intro tr htr
                rw [hbody3] at htr
                rw [hvis3]
                exact hbody2 tr (by rw [hb2body]; exact htr)
              · unfold walk_ok_nodes fresh_nodes cycle_exception
                rw [hadded3, hhead3, hsf3]
                rcases hfar_mem with hnv | hexc
                · rw [hvis] at hnv
                  simp only [Finset.mem_insert, List.mem_toFinset, not_or] at hnv
                  exact Or.inl (fresh_nodes_append hfresh hnv.2.2 hnv.1 hnv.2.1)
                · refine Or.inr ⟨br.added, triple.object, rfl, hfresh, ?_⟩
                  rcases hexc.2 with hc | hc
                  · exact Or.inl hc
                  · exact Or.inr hc
              · rw [hadded3]
                exact List.getLast?_concat _
              · rcases hfar_mem with hnv | hexc
                · rw [hvis] at hnv
                  simp only [Finset.mem_insert, List.mem_toFinset, not_or] at hnv
                  exact Or.inl ⟨hnv.1, hnv.2.1⟩
                · exact Or.inr hexc.2
            | succ r2 =>
              have hfarnv : triple.object ∉ br.visited := by
                rcases hfar_mem with hnv | ⟨hr0, _⟩
                · exact hnv
                · simp at hr0
              have hnotin : triple.object ∉ br.added
                  ∧ triple.object ≠ br.head.subject
                  ∧ triple.object ≠ br.head.object := by
                rw [hvis] at hfarnv
                simp only [Finset.mem_insert, List.mem_toFinset, not_or] at hfarnv
                exact ⟨hfarnv.2.2, hfarnv.1, hfarnv.2.1⟩
              have hfresh2 : fresh_nodes br₂ br₂.added := by
                rw [hb2added]
                exact fresh_nodes_append hfresh hnotin.1 hnotin.2.1 hnotin.2.2
              have hlen2 : br₂.steps.length = br₂.body.length := by
                rw [hb2steps, hb2body]
                simp [hlen]
              have hcur2 : triple.object ∈ br₂.visited := by
                rw [hb2vis]
                exact Finset.mem_insert_self _ _
              obtain ⟨H1, H2, H3, H4, H5, H6, H7, fcur, Hc, Hd⟩ :=
                ih (t1 + 1) triple.object br₂ br' h hlen2 hvis2 hcur2 hfresh2 hbody2
              refine ⟨H1, H2, ?_, ?_, H5, H6, H7, fcur, Hc, ?_⟩
              · rw [H3, hb2body]
                simp only [List.length_append, List.length_singleton]
                omega
              · rw [H4, hb2steps]
                simp only [List.length_append, List.length_singleton]
                omega
              · rcases Hd with ⟨hr0, _⟩ | ⟨_, hgl, hdisj⟩
                · exact absurd hr0 (Nat.succ_ne_zero r2)
                · exact Or.inr ⟨Nat.one_le_iff_ne_zero.mpr (Nat.succ_ne_zero _),
                    hgl, hdisj⟩
          · -- backward step: the far endpoint is the chosen triple's subject
            rw [if_neg hdirf] at h
            set triple :=
              choose ρ t1
                (filter_valid_moves br (get_possible_moves kg current dir)
                  dir (r == 0)) hfm with htrip
            have hfar_mem : triple.subject ∉ br.visited
                ∨ ((r == 0) = true ∧ cycle_exception br triple.subject) := by
              have := hmem.2
              rw [if_neg hdirf] at this
              exact this
            have hnear_eq : triple.object = current := hnear.2 hdirf
            set br₂ : BottomRule :=
              { br.add_triple triple dir with
                  visited := insert triple.subject br.visited } with hbr2
            have hb2body : br₂.body = br.body ++ [triple] := rfl
            have hb2steps : br₂.steps = br.steps ++ [dir] := rfl
            have hb2vis : br₂.visited = insert triple.subject br.visited := rfl
            have hb2added : br₂.added = br.added ++ [triple.subject] := by
              show added_nodes (br.steps ++ [dir]) (br.body ++ [triple]) = _
              rw [added_nodes_append hlen]
              simp [BottomRule.added, if_neg hdirf]
            have hvis2 : br₂.visited
                = insert br.head.subject
                    (insert br.head.object br₂.added.toFinset) := by
              rw [hb2vis, hvis, hb2added]
              ext x
              simp only [Finset.mem_insert, List.toFinset_append, Finset.mem_union,
                List.mem_toFinset, List.toFinset_cons, List.toFinset_nil,
                insert_emptyc_eq, Finset.mem_singleton]
              tauto
            have hsub : br.visited ⊆ br₂.visited := by
              rw [hb2vis]
              exact Finset.subset_insert _ _
            have hbody2 : ∀ tr ∈ br₂.body,
                tr.subject ∈ br₂.visited ∧ tr.object ∈ br₂.visited := by
              intro tr htr
              rw [hb2body] at htr
              rcases List.mem_append.mp htr with hmem2 | hmem2
              · exact ⟨hsub (hbody tr hmem2).1, hsub (hbody tr hmem2).2⟩
              · simp only [List.mem_singleton] at hmem2
                subst hmem2
                refine ⟨?_, ?_⟩
                · rw [hb2vis]; exact Finset.mem_insert_self _ _
                · rw [hnear_eq]; exact hsub hcur
            cases r with
            | zero =>
              simp only [sample_walk, Except.ok.injEq, Option.some.injEq] at h
              have hhead3 : br'.head = br.head := by rw [← h]; rfl
              have hsf3 : br'.start_from = br.start_from := by rw [← h]; rfl
              have hbody3 : br'.body = br.body ++ [triple] := by
                rw [← h]; exact hb2body
              have hsteps3 : br'.steps = br.steps ++ [dir] := by
                rw [← h]; exact hb2steps
              have hadded3 : br'.added = br.added ++ [triple.subject] := by
                rw [← h]; exact hb2added
              have hvis3 : br'.visited = br₂.visited := by rw [← h]
              have hcyc3 : br'.is_cyclical
                  = (triple.subject == br.head.object
                      || triple.subject == br.head.subject) := by
                rw [← h]; rfl
              refine ⟨hhead3, hsf3, by rw [hbody3]; simp, by rw [hsteps3]; simp,
                ?_, ?_, ?_, triple.subject, hcyc3, Or.inr ⟨le_refl 1, ?_, ?_⟩⟩
              · rw [hvis3, hvis2, hb2added, hadded3]
              · intro tr htr
                rw [hbody3] at htr
                rw [hvis3]
                exact hbody2 tr (by rw [hb2body]; exact htr)
              · unfold walk_ok_nodes fresh_nodes cycle_exception
                rw [hadded3, hhead3, hsf3]
                rcases hfar_mem with hnv | hexc
                · rw [hvis] at hnv
                  simp only [Finset.mem_insert, List.mem_toFinset, not_or] at hnv
                  exact Or.inl (fresh_nodes_append hfresh hnv.2.2 hnv.1 hnv.2.1)
                · refine Or.inr ⟨br.added, triple.subject, rfl, hfresh, ?_⟩
                  rcases hexc.2 with hc | hc
                  · exact Or.inl hc
                  · exact Or.inr hc
              · rw [hadded3]
                exact List.getLast?_concat _
              · rcases hfar_mem with hnv | hexc
                · rw [hvis] at hnv
                  simp only [Finset.mem_insert, List.mem_toFinset, not_or] at hnv
                  exact Or.inl ⟨hnv.1, hnv.2.1⟩
                · exact Or.inr hexc.2
            | succ r2 =>
              have hfarnv : triple.subject ∉ br.visited := by
                rcases hfar_mem with hnv | ⟨hr0, _⟩
                · exact hnv
                · simp at hr0
              have hnotin : triple.subject ∉ br.added
                  ∧ triple.subject ≠ br.head.subject
                  ∧ triple.subject ≠ br.head.object := by
                rw [hvis] at hfarnv
                simp only [Finset.mem_insert, List.mem_toFinset, not_or] at hfarnv
                exact ⟨hfarnv.2.2, hfarnv.1, hfarnv.2.1⟩
              have hfresh2 : fresh_nodes br₂ br₂.added := by
                rw [hb2added]
                exact fresh_nodes_append hfresh hnotin.1 hnotin.2.1 hnotin.2.2
              have hlen2 : br₂.steps.length = br₂.body.length := by
                rw [hb2steps, hb2body]
                simp [hlen]
              have hcur2 : triple.subject ∈ br₂.visited := by
                rw [hb2vis]
                exact Finset.mem_insert_self _ _
              obtain ⟨H1, H2, H3, H4, H5, H6, H7, fcur, Hc, Hd⟩ :=
                ih (t1 + 1) triple.subject br₂ br' h hlen2 hvis2 hcur2 hfresh2 hbody2
              refine ⟨H1, H2, ?_, ?_, H5, H6, H7, fcur, Hc, ?_⟩
              · rw [H3, hb2body]
                simp only [List.length_append, List.length_singleton]
                omega
              · rw [H4, hb2steps]
                simp only [List.length_append, List.length_singleton]
                omega
              · rcases Hd with ⟨hr0, _⟩ | ⟨_, hgl, hdisj⟩
                · exact absurd hr0 (Nat.succ_ne_zero r2)
                · exact Or.inr ⟨Nat.one_le_iff_ne_zero.mpr (Nat.succ_ne_zero _),
                    hgl, hdisj⟩

theorem sample_bottom_rule_spec (kg : KnowledgeGraph) (n : Int) (d : String)
    (ρ : Nat → Nat) (br' : BottomRule) (hn : 2 ≤ n)
    (h : sample_bottom_rule kg n d ρ = .ok (some br')) :
    (br'.start_from = "subject" ∨ br'.start_from = "object")
      ∧ br'.body.length = (n - 1).toNat
      ∧ br'.steps.length = (n - 1).toNat
      ∧ (∀ tr ∈ br'.body, tr.subject ∈ br'.visited ∧ tr.object ∈ br'.visited)
      ∧ walk_ok_nodes br'
      ∧ ∃ fcur, br'.added.getLast? = some fcur
          ∧ br'.is_cyclical = (fcur == br'.head.object || fcur == br'.head.subject)
          ∧ ((fcur ≠ br'.head.subject ∧ fcur ≠ br'.head.object)
              ∨ cycle_exception br' fcur) := by
  unfold sample_bottom_rule at h
  rw [if_neg (by omega : ¬ n < 1)] at h
  split at h
  · exact absurd h (by simp)
  · rw [if_neg (by omega : ¬ n = 1)] at h
    obtain ⟨H1, H2, H3, H4, H5, H6, H7, fcur, Hc, Hd⟩ :=
      sample_walk_spec kg d ρ (n - 1).toNat 2 _ _ br' h rfl
        (by simp [mk_bottom_rule, BottomRule.added, added_nodes])
        (by
          have := choose_mem ρ 1
            [(choose ρ 0 kg.triples (by simp_all)).subject,
              (choose ρ 0 kg.triples (by simp_all)).object] (by simp)
          simp only [List.mem_cons, List.mem_singleton, List.not_mem_nil,
            or_false] at this
          simp only [mk_bottom_rule, Finset.mem_insert, Finset.mem_singleton]
          exact this)
        ⟨List.nodup_nil, by simp [mk_bottom_rule, BottomRule.added, added_nodes]⟩
        (by simp [mk_bottom_rule])
    have hrem : 1 ≤ (n - 1).toNat := by omega
    refine ⟨?_, by rw [H3]; simp [mk_bottom_rule],
      by rw [H4]; simp [mk_bottom_rule], H6, H7, fcur, ?_, ?_, ?_⟩
    · rw [H2]
      by_cases hsn :
          choose ρ 1 [(choose ρ 0 kg.triples (by simp_all)).subject,
              (choose ρ 0 kg.triples (by simp_all)).object] (by simp)
            = (choose ρ 0 kg.triples (by simp_all)).subject
      · left
        simp [mk_bottom_rule, hsn]
      · right
        simp [mk_bottom_rule, hsn]
    · rcases Hd with ⟨hr0, _⟩ | ⟨_, hgl, _⟩
      · omega
      · exact hgl
    · rw [H1]
      exact Hc
    · rcases Hd with ⟨hr0, _⟩ | ⟨_, _, hdisj⟩
      · omega
      · rcases hdisj with hfr | hexc
        · rw [H1]
          exact Or.inl hfr
        · right
          unfold cycle_exception at hexc ⊢
          rw [H1, H2]
          exact hexc

/-- C4, amended (the claim is restricted to `n ≥ 2`; for `n = 1` the source
returns before the cyclicity check ever runs).  For every bottom rule
produced by a walk of at least one step, `is_cyclical` is true exactly when
the final `current_node` equals the head endpoint opposite the start. -/
theorem C4_amended (kg : KnowledgeGraph) (n : Int) (d : String)
    (ρ : Nat → Nat) (br' : BottomRule) (hn : 2 ≤ n)
    (h : sample_bottom_rule kg n d ρ = .ok (some br')) :
    br'.is_cyclical = true ↔ walk_final_node br' = opposite_endpoint br' := by
  obtain ⟨hsf, _, _, _, _, fcur, hgl, hcyc, hdisj⟩ :=
    sample_bottom_rule_spec kg n d ρ br' hn h
  have hfin : walk_final_node br' = fcur := by
    simp [walk_final_node, hgl]
  rw [hfin, hcyc]
  rcases hsf with hs | hs
  · have hopp : opposite_endpoint br' = br'.head.object := by
      simp [opposite_endpoint, hs]
    rw [hopp]
    rcases hdisj with ⟨hne_s, hne_o⟩ | hexc
    · simp [hne_s, hne_o]
    · rcases hexc with ⟨_, he⟩ | ⟨hc, _⟩
      · subst he
        simp
      · rw [hs] at hc
        simp at hc
  · have hopp : opposite_endpoint br' = br'.head.subject := by
      have : ¬ br'.start_from = "subject" := by
        rw [hs]
        simp
      simp [opposite_endpoint, this]
    rw [hopp]
    rcases hdisj with ⟨hne_s, hne_o⟩ | hexc
    · simp [hne_s, hne_o]
    · rcases hexc with ⟨hc, _⟩ | ⟨_, he⟩
      · rw [hs] at hc
        simp at hc
      · subst he
        simp

/-- A single self-loop triple, the graph of the C4 counterexample. -/
def kgC4 : KnowledgeGraph :=
  ⟨[{ subject := "a", relation := "r", object := "a" }]⟩

/-- The bottom rule `sample_bottom_rule(kgC4, 1, "both")` returns under the
all-zero oracle. -/
def brC4 : BottomRule :=
  mk_bottom_rule { subject := "a", relation := "r", object := "a" } "subject"

/-- C4, counterexample.  With `n = 1` (allowed by the claim, which demands
only `n ≥ 1`) on a self-loop fact, the sampler returns before the cyclicity
check, leaving `is_cyclical = false` even though the final `current_node`
(the start node `a`) equals the opposite head endpoint (`a` again): the
claimed iff fails. -/
theorem C4_counterexample :
    sample_bottom_rule kgC4 1 ("both") (fun _ => 0) = .ok (some brC4)
      ∧ brC4.is_cyclical = false
      ∧ walk_final_node brC4 = opposite_endpoint brC4 := by
  refine ⟨by decide, by decide, by decide⟩

/-- A two-node graph used for the C4 and C6 witnesses. -/
def kgAB : KnowledgeGraph :=
  ⟨[{ subject := "a", relation := "r", object := "b" }]⟩

/-- The cyclic bottom rule `sample_bottom_rule(kgAB, 2, "both")` produces
under the all-zero oracle: the single step returns to the head object. -/
def brAB : BottomRule :=
  { head := { subject := "a", relation := "r", object := "b" },
    start_from := "subject",
    body := [{ subject := "a", relation := "r", object := "b" }],
    steps := ["forward"],
    is_cyclical := true,
    visited := {"a", "b"} }

theorem C4_amended_witness :
    (2 : Int) ≤ 2
      ∧ (brAB.is_cyclical = true
          ↔ walk_final_node brAB = opposite_endpoint brAB) :=
  ⟨by norm_num,
    C4_amended kgAB 2 "both" (fun _ => 0) brAB (by norm_num) (by decide)⟩

/-- C6.  Every bottom rule returned for `n ≥ 1` has `n − 1` body triples and
`n − 1` steps, every body triple's endpoints are in `visited`, and the added
walk nodes are pairwise distinct and distinct from the head endpoints,
except that the last added node may close the cycle at the opposite head
endpoint. -/
theorem C6_sample_invariants (kg : KnowledgeGraph) (n : Int) (d : String)
    (ρ : Nat → Nat) (br' : BottomRule) (hn : 1 ≤ n)
    (h : sample_bottom_rule kg n d ρ = .ok (some br')) :
    br'.body.length = (n - 1).toNat
      ∧ br'.steps.length = (n - 1).toNat
      ∧ (∀ tr ∈ br'.body, tr.subject ∈ br'.visited ∧ tr.object ∈ br'.visited)
      ∧ ((br'.added.Nodup
            ∧ ∀ x ∈ br'.added, x ≠ br'.head.subject ∧ x ≠ br'.head.object)
          ∨ ∃ L₀, br'.added = L₀ ++ [opposite_endpoint br']
              ∧ L₀.Nodup
              ∧ ∀ x ∈ L₀, x ≠ br'.head.subject ∧ x ≠ br'.head.object) := by
  rcases (by omega : n = 1 ∨ 2 ≤ n) with h1 | h2
  · subst h1
    unfold sample_bottom_rule at h
    rw [if_neg (by omega : ¬ (1 : Int) < 1)] at h
    split at h
    · exact absurd h (by simp)
    · rw [if_pos rfl] at h
      simp only [Except.ok.injEq, Option.some.injEq] at h
      rw [← h]
      refine ⟨by simp [mk_bottom_rule], by simp [mk_bottom_rule], ?_, ?_⟩
      · intro tr htr
        simp [mk_bottom_rule] at htr
      · left
        constructor
        · simp [mk_bottom_rule, BottomRule.added, added_nodes]
        · intro x hx
          simp [mk_bottom_rule, BottomRule.added, added_nodes] at hx
  · obtain ⟨hsf, h1', h2', h3', hwok, _⟩ :=
      sample_bottom_rule_spec kg n d ρ br' h2 h
    refine ⟨h1', h2', h3', ?_⟩
    rcases hwok with hfr | ⟨L₀, w, heq, hfr, hexc⟩
    · exact Or.inl hfr
    · have hw : w = opposite_endpoint br' := by
        rcases hsf with hs | hs
        · rcases hexc with ⟨_, hwe⟩ | ⟨hc, _⟩
          · simp [opposite_endpoint, hs, hwe]
          · rw [hs] at hc
            simp at hc
        · rcases hexc with ⟨hc, _⟩ | ⟨_, hwe⟩
          · rw [hs] at hc
            simp at hc
          · have : ¬ br'.start_from = "subject" := by
              rw [hs]
              simp
            simp [opposite_endpoint, this, hwe]
      subst hw
      exact Or.inr ⟨L₀, heq, hfr.1, hfr.2⟩

theorem C6_sample_invariants_witness :
    (1 : Int) ≤ 1
      ∧ (mk_bottom_rule { subject := "a", relation := "r", object := "b" }
          "subject").body.length = ((1 : Int) - 1).toNat :=
  ⟨by norm_num,
    (C6_sample_invariants kgAB 1 "both" (fun _ => 0) _ (by norm_num)
        (by decide)).1⟩

/-- The three recognised values of `direction_allowed`. -/
def valid_direction (d : String) : Prop :=
  d = "both" ∨ d = "forward-only" ∨ d = "backward-only"

instance (d : String) : Decidable (valid_direction d) := by
  unfold valid_direction
  infer_instance

theorem pick_step_direction_ok {d : String} (ρ : Nat → Nat) (t : Nat)
    (hd : valid_direction d) : ∃ p, pick_step_direction d ρ t = .ok p := by
  rcases hd with h | h | h <;> subst h <;> simp [pick_step_direction]

theorem pick_step_direction_invalid {d : String} (ρ : Nat → Nat) (t : Nat)
    (hd : ¬ valid_direction d) :
    pick_step_direction d ρ t
      = .error (.valueError ("Unsupported direction_allowed")) := by
  unfold valid_direction at hd
  push_neg at hd
  unfold pick_step_direction
  rw [if_neg hd.1, if_neg hd.2.1, if_neg hd.2.2]

theorem sample_walk_no_error (kg : KnowledgeGraph) {d : String} (ρ : Nat → Nat)
    (hd : valid_direction d) :
    ∀ (rem t : Nat) (cur : String) (br : BottomRule),
      ∃ res, sample_walk kg d ρ rem t cur br = .ok res := by
  intro rem
  induction rem with
  | zero =>
    intro t cur br
    exact ⟨_, rfl⟩
  | succ r ih =>
    intro t cur br
    rw [sample_walk]
    obtain ⟨⟨dir, t1⟩, hp⟩ := pick_step_direction_ok ρ t hd
    rw [hp]
    simp only
    by_cases hpm : get_possible_moves kg cur dir = []
    · rw [if_pos hpm]
      exact ⟨none, rfl⟩
    · rw [if_neg hpm]
      by_cases hfm :
          filter_valid_moves br (get_possible_moves kg cur dir) dir (r == 0) = []
      · rw [dif_pos hfm]
        exact ⟨none, rfl⟩
      · rw [dif_neg hfm]
        by_cases hdirf : dir = "forward"
        · rw [if_pos hdirf]
          exact ih _ _ _
        · rw [if_neg hdirf]
          exact ih _ _ _

theorem sample_walk_invalid (kg : KnowledgeGraph) {d : String} (ρ : Nat → Nat)
    (hd : ¬ valid_direction d) (r t : Nat) (cur : String) (br : BottomRule) :
    sample_walk kg d ρ (r + 1) t cur br
      = .error (.valueError ("Unsupported direction_allowed")) := by
  rw [sample_walk, pick_step_direction_invalid ρ t hd]

/-- C9, amended.  `sample_bottom_rule` raises `ValueError` exactly when
`n < 1`, or when `n ≥ 2` and `direction_allowed` is invalid — the
direction check happens inside the step loop, after the head and start node
have been sampled, so with `n = 1` an invalid direction goes unnoticed.  On
a non-empty graph no other exception occurs: every remaining argument pair
yields a `BottomRule` or the `None` sentinel. -/
theorem C9_amended (kg : KnowledgeGraph) (n : Int) (d : String)
    (ρ : Nat → Nat) (htr : kg.triples ≠ []) :
    ((∃ msg, sample_bottom_rule kg n d ρ = .error (.valueError msg))
        ↔ (n < 1 ∨ (2 ≤ n ∧ ¬ valid_direction d)))
      ∧ ((1 ≤ n ∧ (n = 1 ∨ valid_direction d)) →
          ∃ res, sample_bottom_rule kg n d ρ = .ok res) := by
  by_cases hn1 : n < 1
  · constructor
    · constructor
      · intro _
        exact Or.inl hn1
      · intro _
        refine ⟨"n must be >= greater than or equal to 1", ?_⟩
        unfold sample_bottom_rule
        rw [if_pos hn1]
    · intro hc
      omega
  · have hunfold : sample_bottom_rule kg n d ρ
        = (match htr2 : kg.triples with
          | [] => .error (.indexError ("Cannot choose from an empty sequence"))
          | _ :: _ =>
            let head_triple := choose ρ 0 kg.triples (by simp [htr2])
            let initial_start_node :=
              choose ρ 1 [head_triple.subject, head_triple.object] (by simp)
            let start_from :=
              if initial_start_node = head_triple.subject then "subject" else "object"
            let bottom_rule := mk_bottom_rule head_triple start_from
            if n = 1 then .ok (some bottom_rule)
            else sample_walk kg d ρ (n - 1).toNat 2 initial_start_node bottom_rule) := by
      unfold sample_bottom_rule
      rw [if_neg hn1]
    rw [hunfold]
    split
    · simp_all
    · by_cases hne1 : n = 1
      · rw [if_pos hne1]
        constructor
        · constructor
          · intro ⟨msg, hmsg⟩
            exact absurd hmsg (by simp)
          · intro hc
            rcases hc with hc | hc
            · omega
            · omega
        · intro _
          exact ⟨_, rfl⟩
      · rw [if_neg hne1]
        have hrem : ∃ r, (n - 1).toNat = r + 1 := by
          have : 1 ≤ (n - 1).toNat := by omega
          exact ⟨(n - 1).toNat - 1, by omega⟩
        obtain ⟨r, hr⟩ := hrem
        by_cases hvd : valid_direction d
        · obtain ⟨res, hres⟩ := sample_walk_no_error kg ρ hvd (n - 1).toNat 2 _ _
          rw [hres]
          constructor
          · constructor
            · intro ⟨msg, hmsg⟩
              exact absurd hmsg (by simp)
            · intro hc
              rcases hc with hc | hc
              · omega
              · exact absurd hvd hc.2
          · intro _
            exact ⟨_, rfl⟩
        · rw [hr, sample_walk_invalid kg ρ hvd]
          constructor
          · constructor
            · intro _
              exact Or.inr ⟨by omega, hvd⟩
            · intro _
              exact ⟨_, rfl⟩
          · intro hc
            rcases hc.2 with hc2 | hc2
            · omega
            · exact absurd hc2 hvd

/-- C9, counterexample.  With `n = 1` and the unknown direction
`"sideways"`, the sampler returns a bottom rule instead of raising: the
claimed "ValueError exactly when the direction is invalid" fails, and the
check is not at the boundary (the head triple has already been sampled). -/
theorem C9_counterexample :
    ¬ valid_direction ("sideways")
      ∧ sample_bottom_rule kgAB 1 ("sideways") (fun _ => 0)
          = .ok (some (mk_bottom_rule
              { subject := "a", relation := "r", object := "b" } "subject")) := by
  constructor
  · decide
  · decide

theorem C9_amended_witness :
    kgAB.triples ≠ []
      ∧ ∃ res, sample_bottom_rule kgAB 1 ("both") (fun _ => 0) = .ok res :=
  ⟨by decide,
    (C9_amended kgAB 1 "both" (fun _ => 0) (by decide)).2
      ⟨by norm_num, Or.inl rfl⟩⟩

/-
Embedding of src/replication/rule_generalization/GeneralizedRule_withConf.py.

Python dicts become association lists with in-place overwrite (`mapping_set`)
and first-match lookup (`mapping_get`); `dict.fromkeys` becomes
`firstDedup`.  The f-string `f"A{A_index}"` becomes `aLabel`, built on a
structural decimal renderer.
-/

/-- Decimal digits of `n`, most significant first; the fuel argument makes
the recursion structural (any fuel above `n` gives the same digits). -/
def natDecimalAux : Nat → Nat → List Char
  | 0, _ => []
  | fuel + 1, n => if n = 0 then [] else natDecimalAux fuel (n / 10) ++ [Nat.digitChar (n % 10)]

/-- Python's `str` on a natural number. -/
def natDecimal (n : Nat) : String :=
  if n = 0 then "0" else (natDecimalAux (n + 1) n).asString

/-- The variable name `f"A{A_index}"`. -/
def aLabel (i : Nat) : String :=
  "A" ++ natDecimal i

theorem natDecimalAux_eq_digits :
    ∀ (n fuel : Nat), n < fuel →
      natDecimalAux fuel n = (Nat.digits 10 n).reverse.map Nat.digitChar := by
  intro n
  induction n using Nat.strong_induction_on with
  | _ n ih =>
    intro fuel hlt
    cases fuel with
    | zero => omega
    | succ f =>
      by_cases hn : n = 0
      · subst hn
        simp [natDecimalAux]
      · rw [natDecimalAux, if_neg hn,
          Nat.digits_def' (by norm_num : (1:ℕ) < 10) (Nat.pos_of_ne_zero hn)]
        have hdiv : n / 10 < n := Nat.div_lt_self (Nat.pos_of_ne_zero hn) (by norm_num)
        rw [ih (n / 10) hdiv f (by omega)]
        simp

theorem natDecimal_injective : Function.Injective natDecimal := by
  have hdc10 : ∀ a b : Fin 10, Nat.digitChar a.val = Nat.digitChar b.val → a = b := by
    decide
  have hdc : ∀ a b : Nat, a < 10 → b < 10 → Nat.digitChar a = Nat.digitChar b → a = b := by
    intro a b ha hb hc
    have := hdc10 ⟨a, ha⟩ ⟨b, hb⟩ hc
    simpa [Fin.ext_iff] using this
  have hmap : ∀ l1 l2 : List Nat, (∀ d ∈ l1, d < 10) → (∀ d ∈ l2, d < 10) →
      l1.map Nat.digitChar = l2.map Nat.digitChar → l1 = l2 := by
    intro l1
    induction l1 with
    | nil =>
      intro l2 _ _ h
      cases l2 with
      | nil => rfl
      | cons b bs => simp at h
    | cons a as ih =>
      intro l2 hb1 hb2 h
      cases l2 with
      | nil => simp at h
      | cons b bs =>
        simp only [List.map_cons, List.cons.injEq] at h
        have hab : a = b :=
          hdc a b (hb1 a (by simp)) (hb2 b (by simp)) h.1
        have : as = bs :=
          ih bs (fun d hd => hb1 d (by simp [hd]))
            (fun d hd => hb2 d (by simp [hd])) h.2
        rw [hab, this]
  have hdigs : ∀ n : Nat, ∀ d ∈ Nat.digits 10 n, d < 10 := by
    intro n d hd
    exact Nat.digits_lt_base (by norm_num) hd
  have hzero : ∀ n : Nat, n ≠ 0 →
      (['0'] : List Char) = (Nat.digits 10 n).reverse.map Nat.digitChar → False := by
    intro n hn hdata
    have hrev : ([0] : List Nat) = (Nat.digits 10 n).reverse := by
      apply hmap
      · intro d hd
        simp only [List.mem_singleton] at hd
        omega
      · intro d hd
        exact hdigs n d (by simpa using hd)
      · exact hdata
    have hdig : Nat.digits 10 n = [0] := by
      have := congrArg List.reverse hrev
      simpa using this.symm
    have hofd := Nat.ofDigits_digits 10 n
    rw [hdig] at hofd
    simp [Nat.ofDigits] at hofd
    exact hn hofd.symm
  intro m n h
  unfold natDecimal at h
  by_cases hm : m = 0 <;> by_cases hn : n = 0
  · rw [hm, hn]
  · exfalso
    rw [if_pos hm, if_neg hn] at h
    have hdata := congrArg String.data h
    rw [natDecimalAux_eq_digits n (n + 1) (by omega)] at hdata
    simp only [List.asString] at hdata
    exact hzero n hn hdata
  · exfalso
    rw [if_neg hm, if_pos hn] at h
    have hdata := congrArg String.data h.symm
    rw [natDecimalAux_eq_digits m (m + 1) (by omega)] at hdata
    simp only [List.asString] at hdata
    exact hzero m hm hdata
  · rw [if_neg hm, if_neg hn] at h
    have hdata := congrArg String.data h
    rw [natDecimalAux_eq_digits m (m + 1) (by omega),
      natDecimalAux_eq_digits n (n + 1) (by omega)] at hdata
    simp only [List.asString] at hdata
    have hrev : (Nat.digits 10 m).reverse = (Nat.digits 10 n).reverse := by
      apply hmap
      · intro d hd
        exact hdigs m d (by simpa using hd)
      · intro d hd
        exact hdigs n d (by simpa using hd)
      · exact hdata
    have hdig : Nat.digits 10 m = Nat.digits 10 n := by
      have := congrArg List.reverse hrev
      simpa using this
    have h1 := Nat.ofDigits_digits 10 m
    have h2 := Nat.ofDigits_digits 10 n
    rw [← h1, ← h2, hdig]

theorem aLabel_injective : Function.Injective aLabel := by
  intro i j h
  unfold aLabel at h
  have hdata := congrArg String.data h
  simp only [String.data_append] at hdata
  have : (natDecimal i).data = (natDecimal j).data := by
    have := hdata
    simp only [List.cons.injEq] at this
    exact List.append_cancel_left hdata
  exact natDecimal_injective (by
    cases hni : natDecimal i
    cases hnj : natDecimal j
    rw [hni, hnj] at this
    exact String.ext (by simpa using this))

theorem aLabel_ne_Y (i : Nat) : aLabel i ≠ "Y" := by
  intro h
  have hdata := congrArg String.data h
  simp only [aLabel, String.data_append] at hdata
  have : 'A' :: (natDecimal i).data = ['Y'] := hdata
  simp at this

theorem aLabel_ne_X (i : Nat) : aLabel i ≠ "X" := by
  intro h
  have hdata := congrArg String.data h
  simp only [aLabel, String.data_append] at hdata
  have : 'A' :: (natDecimal i).data = ['X'] := hdata
  simp at this

/-- Python dict lookup on an association list (first match).  In the source
every looked-up key is present (all head and body nodes occur in the
flattened node list, which supplies the keys), so the `KeyError` branch is
unreachable; it is modelled by returning the key itself. -/
def mapping_get (nm : List (String × String)) (k : String) : String :=
  match nm.find? (fun p => p.1 == k) with
  | some p => p.2
  | none => k

/-- Python dict assignment `nm[k] = v`: overwrite in place when the key
exists (keeping its position), append otherwise. -/
def mapping_set (nm : List (String × String)) (k v : String) :
    List (String × String) :=
  match nm with
  | [] => [(k, v)]
  | p :: rest => if p.1 = k then (k, v) :: rest else p :: mapping_set rest k v

/-- The `while f"A{A_index}" in self.node_mappings.values(): A_index += 1`
loop.  The fuel `vals.length + 1` always suffices: the candidate labels are
pairwise distinct, so at most `vals.length` of them can collide with a
value. -/
def find_free_A_index (vals : List String) : Nat → Nat → Nat
  | 0, idx => idx
  | fuel + 1, idx =>
    if aLabel idx ∈ vals then find_free_A_index vals fuel (idx + 1) else idx

/-- The variable-assignment loop of `__post_init__`: the first distinct node
becomes `Y`, the second `X`, and each further distinct node the next free
`A{i}`.  `assigned` tracks the labels already present among the dict's
values (unassigned values are `None` in Python and can never collide with a
label). -/
def label_loop : List String → Nat → Nat → List String → List (String × String)
  | [], _, _, _ => []
  | node :: rest, uidx, aIdx, assigned =>
    if uidx = 0 then
      (node, "Y") :: label_loop rest (uidx + 1) aIdx (assigned ++ ["Y"])
    else if uidx = 1 then
      (node, "X") :: label_loop rest (uidx + 1) aIdx (assigned ++ ["X"])
    else
      let j := find_free_A_index assigned (assigned.length + 1) aIdx
      (node, aLabel j) :: label_loop rest (uidx + 1) j (assigned ++ [aLabel j])

structure GeneralizedRule where
  bottom_rule : BottomRule
  rule_type : String
  AC1_rule_variant : Option String := none
  node_mappings : List (String × String) := []
  generalized_head : Triple
  generalized_body : List Triple := []
  confidence : ℚ := 0
  body_groundings_count : Nat := 0
  head_groundings_count : Nat := 0
deriving DecidableEq

/-- `GeneralizedRule.__post_init__`: validation, variable assignment over
the deduplicated flattened nodes, re-introduction of constants per rule
type, and construction of the generalized head and body.  (The `bottom_rule
is None` escape hatch of the source is not modelled: a `BottomRule` is
always supplied.)  `flattened_nodes[1]` and `flattened_nodes[-1]` always
exist (the flattened list starts with the two chained head entities), so the
`getD` defaults are unreachable. -/
def mk_generalized_rule (br : BottomRule) (rule_type : String)
    (variant : Option String) : Except PyErr GeneralizedRule :=
  if rule_type ∉ (["AC1", "AC2", "C"] : List String) then
    .error (.valueError ("rule_type must be one of: AC1, AC2, C"))
  else if rule_type = "AC1" ∧ br.is_cyclical
      ∧ variant ∉ ([some "Y_as_constant", some "X_as_constant"] :
          List (Option String)) then
    .error (.valueError
      ("AC1 rules must specify AC1_rule_variant as either Y_as_constant or X_as_constant"))
  else if rule_type ≠ "AC1" ∧ variant ≠ none then
    .error (.valueError ("AC1_rule_variant should only be specified for C rules"))
  else
    let flattened := br.get_flattened_nodes
    let base := label_loop (firstDedup flattened) 0 2 []
    let nm :=
      if rule_type = "C" then base
      else if rule_type = "AC2" then
        mapping_set base flattened.headI flattened.headI
      else
        if br.is_cyclical then
          if variant = some "Y_as_constant" then
            mapping_set base flattened.headI flattened.headI
          else
            mapping_set base (flattened.getD 1 "") (flattened.getD 1 "")
        else
          mapping_set
            (mapping_set base flattened.headI flattened.headI)
            (flattened.getLastD "") (flattened.getLastD "")
    .ok { bottom_rule := br, rule_type := rule_type, AC1_rule_variant := variant,
          node_mappings := nm,
          generalized_head :=
            { subject := mapping_get nm br.head.subject,
              relation := br.head.relation,
              object := mapping_get nm br.head.object },
          generalized_body :=
            br.body.map (fun tr =>
              { subject := mapping_get nm tr.subject,
                relation := tr.relation,
                object := mapping_get nm tr.object }) }

/-- `generalize_bottom_rule`: three rules for a cyclic bottom rule, two for
an acyclic one.  (The `None` input branch prints and returns `[]`; it is not
modelled since a `BottomRule` is always supplied.) -/
def generalize_bottom_rule (br : BottomRule) :
    Except PyErr (List GeneralizedRule) :=
  if br.is_cyclical then do
    let r1 ← mk_generalized_rule br "AC1" (some "Y_as_constant")
    let r2 ← mk_generalized_rule br "AC1" (some "X_as_constant")
    let r3 ← mk_generalized_rule br "C" none
    .ok [r1, r2, r3]
  else do
    let r1 ← mk_generalized_rule br "AC1" none
    let r2 ← mk_generalized_rule br "AC2" none
    .ok [r1, r2]

theorem getLastD_eq_getLast (l : List String) (d : String) (h : l ≠ []) :
    l.getLastD d = l.getLast h := by
  cases l with
  | nil => simp at h
  | cons a as =>
    rw [List.getLast_eq_getLastD, List.getLastD_cons]

/-- The labels already assigned when the `uidx`-th distinct node is reached:
`Y`, `X`, then `A2 … A(uidx−1)`. -/
def assigned_up_to (i : Nat) : List String :=
  "Y" :: "X" :: (List.range (i - 2)).map (fun k => aLabel (k + 2))

theorem mem_assigned_up_to {i j : Nat} :
    aLabel j ∈ assigned_up_to i ↔ (2 ≤ j ∧ j < i) := by
  unfold assigned_up_to
  simp only [List.mem_cons, List.mem_map, List.mem_range]
  constructor
  · rintro (hy | hx | ⟨k, hk, he⟩)
    · exact absurd hy (aLabel_ne_Y j)
    · exact absurd hx (aLabel_ne_X j)
    · have := aLabel_injective he
      omega
  · intro ⟨h2, hi⟩
    refine Or.inr (Or.inr ⟨j - 2, by omega, ?_⟩)
    congr 1
    omega

theorem assigned_up_to_length (i : Nat) : (assigned_up_to i).length = i - 2 + 2 := by
  unfold assigned_up_to
  simp

theorem assigned_up_to_snoc {i : Nat} (hi : 2 ≤ i) :
    assigned_up_to i ++ [aLabel i] = assigned_up_to (i + 1) := by
  unfold assigned_up_to
  have h1 : i + 1 - 2 = (i - 2) + 1 := by omega
  have h2 : i - 2 + 2 = i := by omega
  rw [h1, List.range_succ, List.map_append]
  simp [h2]

theorem find_free_A_index_eq {i : Nat} (hi : 2 ≤ i) :
    find_free_A_index (assigned_up_to i) ((assigned_up_to i).length + 1)
        (if i = 2 then 2 else i - 1) = i := by
  by_cases h2 : i = 2
  · subst h2
    decide
  · rw [if_neg h2]
    obtain ⟨k, rfl⟩ : ∃ k, i = k + 3 := ⟨i - 3, by omega⟩
    rw [assigned_up_to_length]
    show find_free_A_index (assigned_up_to (k + 3)) (k + 3 - 2 + 2 + 1) (k + 3 - 1) = k + 3
    have hstep1 : k + 3 - 2 + 2 + 1 = (k + 3) + 1 := by omega
    have hidx : k + 3 - 1 = k + 2 := by omega
    rw [hstep1, hidx, find_free_A_index,
      if_pos (mem_assigned_up_to.mpr ⟨by omega, by omega⟩),
      find_free_A_index,
      if_neg (fun hmem => by
        have := (mem_assigned_up_to.mp hmem).2
        omega)]

theorem label_loop_go : ∀ (rest : List String) (i : Nat), 2 ≤ i →
    label_loop rest i (if i = 2 then 2 else i - 1) (assigned_up_to i)
      = rest.zip ((List.range rest.length).map (fun k => aLabel (k + i))) := by
  intro rest
  induction rest with
  | nil =>
    intro i _
    simp [label_loop]
  | cons node rest ih =>
    intro i hi
    rw [label_loop]
    rw [if_neg (by omega : ¬ i = 0), if_neg (by omega : ¬ i = 1)]
    simp only
    rw [find_free_A_index_eq hi, assigned_up_to_snoc hi]
    have hnext : (if i + 1 = 2 then 2 else i + 1 - 1) = i := by
      rw [if_neg (by omega)]
      omega
    have := ih (i + 1) (by omega)
    rw [hnext] at this
    rw [this]
    simp only [List.length_cons, List.range_succ_eq_map, List.map_cons,
      List.zip_cons_cons, List.map_map]
    congr 2
    · congr 1
      omega
    · apply List.map_congr_left
      intro k _
      simp only [Function.comp_apply]
      congr 1
      omega

theorem label_loop_spec (y x : String) (rest : List String) :
    label_loop (y :: x :: rest) 0 2 []
      = (y, "Y") :: (x, "X")
          :: rest.zip ((List.range rest.length).map (fun k => aLabel (k + 2))) := by
  rw [label_loop, if_pos rfl, label_loop, if_neg (by omega), if_pos rfl]
  have h0 : (([] : List String) ++ ["Y"]) ++ ["X"] = assigned_up_to 2 := by
    unfold assigned_up_to
    simp
  simp only [List.nil_append]
  have := label_loop_go rest 2 (le_refl 2)
  rw [if_pos rfl] at this
  rw [← this]
  congr 1

theorem getLastD_mem (l : List String) (d : String) (h : l ≠ []) :
    l.getLastD d ∈ l := by
  rw [getLastD_eq_getLast l d h]
  exact List.getLast_mem h

theorem mapping_get_cons (p : String × String) (rest : List (String × String))
    (k : String) :
    mapping_get (p :: rest) k = if p.1 = k then p.2 else mapping_get rest k := by
  unfold mapping_get
  by_cases h : p.1 = k
  · rw [List.find?_cons_of_pos _ (by simp [h]), if_pos h]
  · rw [List.find?_cons_of_neg _ (by simp [h]), if_neg h]

theorem mapping_get_set_self : ∀ (nm : List (String × String)) (k v : String),
    mapping_get (mapping_set nm k v) k = v := by
  intro nm k v
  induction nm with
  | nil => simp [mapping_set, mapping_get_cons]
  | cons p rest ih =>
    rw [mapping_set]
    by_cases h : p.1 = k
    · rw [if_pos h, mapping_get_cons, if_pos rfl]
    · rw [if_neg h, mapping_get_cons, if_neg h, ih]

theorem mapping_get_set_other : ∀ (nm : List (String × String)) (k v k2 : String),
    k2 ≠ k → mapping_get (mapping_set nm k v) k2 = mapping_get nm k2 := by
  intro nm k v k2 hne
  induction nm with
  | nil =>
    rw [mapping_set, mapping_get_cons, if_neg (fun he => hne he.symm)]
  | cons p rest ih =>
    rw [mapping_set]
    by_cases h : p.1 = k
    · rw [if_pos h, mapping_get_cons, if_neg (fun he => hne he.symm),
        mapping_get_cons, if_neg (by rw [h]; exact fun he => hne he.symm)]
    · rw [if_neg h, mapping_get_cons, mapping_get_cons, ih]

theorem find_zip_label : ∀ (rest : List String) (i : Nat) (h : i < rest.length)
    (start : Nat), rest.Nodup →
    mapping_get
        (rest.zip ((List.range rest.length).map (fun k => aLabel (k + start))))
        (rest.get ⟨i, h⟩)
      = aLabel (i + start) := by
  intro rest
  induction rest with
  | nil =>
    intro i h
    simp at h
  | cons a as ih =>
    intro i h start hnd
    have hlist : (a :: as).zip
          (List.map (fun k => aLabel (k + start)) (List.range (a :: as).length))
        = (a, aLabel start)
            :: as.zip ((List.range as.length).map (fun k => aLabel (k + (start + 1)))) := by
      rw [List.length_cons, List.range_succ_eq_map, List.map_cons, List.zip_cons_cons]
      congr 1
      · simp
      · rw [List.map_map]
        congr 1
        apply List.map_congr_left
        intro k _
        simp only [Function.comp_apply]
        congr 1
        omega
    rw [hlist]
    cases i with
    | zero =>
      rw [show (a :: as).get ⟨0, h⟩ = a from rfl]
      simp [mapping_get_cons]
    | succ j =>
      rw [show (a :: as).get ⟨j + 1, h⟩ = as.get ⟨j, by simpa using h⟩ from rfl,
        mapping_get_cons,
        if_neg (by
          intro he
          have he2 : a = as.get ⟨j, by simpa using h⟩ := he
          apply (List.nodup_cons.mp hnd).1
          rw [he2]
          exact List.get_mem as _ _),
        ih j (by simpa using h) (start + 1) (List.nodup_cons.mp hnd).2]
      congr 1
      omega

theorem flattened_structure (br : BottomRule) :
    br.get_flattened_nodes
      = (if br.start_from = "object" then br.head.subject else br.head.object)
        :: (if br.start_from = "object" then br.head.object else br.head.subject)
        :: ((br.steps.zip br.body).map (fun p =>
              if p.1 = "forward" then (p.2.subject, p.2.relation, p.2.object)
              else ((p.2.flipped).subject, (p.2.flipped).relation,
                (p.2.flipped).object))).flatMap (fun a => [a.1, a.2.2]) := by
  unfold BottomRule.get_flattened_nodes BottomRule.get_chained
  by_cases h : br.start_from = "object" <;> simp [h, Triple.flipped]

/-- The node mapping `__post_init__` builds for an `AC1` rule over an
acyclic bottom rule: labels from the deduplicated flattened nodes, then the
first flattened node and the last flattened node anchored to themselves. -/
def NM (br : BottomRule) : List (String × String) :=
  mapping_set
    (mapping_set (label_loop (firstDedup br.get_flattened_nodes) 0 2 [])
      br.get_flattened_nodes.headI br.get_flattened_nodes.headI)
    (br.get_flattened_nodes.getLastD "") (br.get_flattened_nodes.getLastD "")

theorem mk_generalized_rule_AC1_acyclic (br : BottomRule)
    (hcyc : br.is_cyclical = false) :
    mk_generalized_rule br "AC1" none
      = .ok { bottom_rule := br, rule_type := "AC1", AC1_rule_variant := none,
              node_mappings := NM br,
              generalized_head :=
                { subject := mapping_get (NM br) br.head.subject,
                  relation := br.head.relation,
                  object := mapping_get (NM br) br.head.object },
              generalized_body :=
                br.body.map (fun tr =>
                  { subject := mapping_get (NM br) tr.subject,
                    relation := tr.relation,
                    object := mapping_get (NM br) tr.object }),
              confidence := 0, body_groundings_count := 0,
              head_groundings_count := 0 } := by
  unfold mk_generalized_rule
  rw [if_neg (by decide), if_neg (by simp [hcyc]), if_neg (by simp)]
  simp [NM, hcyc]

/-- C1, amended.  For an `AC1` rule generalized from an acyclic bottom rule
whose walk visits pairwise-distinct nodes (expressed by the shape of the
deduplicated flattened node list, with the final flattened node the last
distinct one): the head endpoint opposite the walk start is anchored as a
constant (its original entity), the walk-start endpoint becomes the variable
`X` — so exactly one generalized-head endpoint is a constant, not both — the
final walk node is anchored as a constant, and every interior node is mapped
to the next label `A2, A3, …`, all pairwise distinct. -/
theorem C1_amended (br : BottomRule) (rule : GeneralizedRule)
    (y x : String) (rest : List String)
    (hcyc : br.is_cyclical = false)
    (hne : br.head.subject ≠ br.head.object)
    (hd : firstDedup br.get_flattened_nodes = y :: x :: rest)
    (hrest : rest ≠ [])
    (hw : br.get_flattened_nodes.getLastD "" = rest.getLastD "")
    (h : mk_generalized_rule br "AC1" none = .ok rule) :
    rule.generalized_head
        = (if br.start_from = "object" then
            { subject := br.head.subject, relation := br.head.relation,
              object := "X", reversed := false }
          else
            { subject := "X", relation := br.head.relation,
              object := br.head.object, reversed := false })
      ∧ mapping_get rule.node_mappings (rest.getLastD "") = rest.getLastD ""
      ∧ (∀ i (hi : i + 1 < rest.length),
          mapping_get rule.node_mappings (rest.get ⟨i, by omega⟩) = aLabel (i + 2))
      ∧ (∀ i j : Nat, i ≠ j → aLabel (i + 2) ≠ aLabel (j + 2)) := by
  rw [mk_generalized_rule_AC1_acyclic br hcyc] at h
  simp only [Except.ok.injEq] at h
  have hnm : rule.node_mappings = NM br := by rw [← h]
  have hgh : rule.generalized_head
      = { subject := mapping_get (NM br) br.head.subject,
          relation := br.head.relation,
          object := mapping_get (NM br) br.head.object, reversed := false } := by
    rw [← h]
  have hstruct := flattened_structure br
  have hheadI : br.get_flattened_nodes.headI
      = (if br.start_from = "object" then br.head.subject else br.head.object) := by
    rw [hstruct]
    rfl
  have hne01 : (if br.start_from = "object" then br.head.object else br.head.subject)
      ≠ (if br.start_from = "object" then br.head.subject else br.head.object) := by
    by_cases hsf : br.start_from = "object" <;> simp [hsf, hne, Ne.symm hne]
  have hkey : (if br.start_from = "object" then br.head.subject else br.head.object) = y
      ∧ (if br.start_from = "object" then br.head.object else br.head.subject) = x := by
    have hd2 := hd
    rw [hstruct] at hd2
    unfold firstDedup at hd2
    revert hd2 hne01
    generalize (if br.start_from = "object" then br.head.subject else br.head.object) = f0
    generalize (if br.start_from = "object" then br.head.object else br.head.subject) = f1
    intro hne01 hd2
    rw [firstDedupAux, if_neg (List.not_mem_nil _), firstDedupAux,
      if_neg (by simpa using hne01)] at hd2
    simp only [List.cons.injEq] at hd2
    exact ⟨hd2.1, hd2.2.1⟩
  obtain ⟨hy, hx⟩ := hkey
  have hheadI_y : br.get_flattened_nodes.headI = y := by rw [hheadI, hy]
  have hnd0 := nodup_firstDedup br.get_flattened_nodes
  rw [hd] at hnd0
  have hy_nin : y ∉ x :: rest := (List.nodup_cons.mp hnd0).1
  have hnd1 := (List.nodup_cons.mp hnd0).2
  have hx_nin : x ∉ rest := (List.nodup_cons.mp hnd1).1
  have hrest_nd : rest.Nodup := (List.nodup_cons.mp hnd1).2
  have hy_nin_rest : y ∉ rest := fun hc => hy_nin (List.mem_cons_of_mem _ hc)
  have hyx : y ≠ x := by
    intro he
    apply hy_nin
    rw [he]
    exact List.mem_cons_self _ _
  have hwmem : rest.getLastD "" ∈ rest := getLastD_mem rest "" hrest
  have hw_ne_y : rest.getLastD "" ≠ y := by
    intro he
    apply hy_nin_rest
    rw [← he]
    exact hwmem
  have hw_ne_x : rest.getLastD "" ≠ x := by
    intro he
    apply hx_nin
    rw [← he]
    exact hwmem
  have hbase : label_loop (firstDedup br.get_flattened_nodes) 0 2 []
      = (y, "Y") :: (x, "X")
          :: rest.zip ((List.range rest.length).map (fun k => aLabel (k + 2))) := by
    rw [hd, label_loop_spec]
  have hNM : NM br
      = mapping_set
          (mapping_set
            ((y, "Y") :: (x, "X")
              :: rest.zip ((List.range rest.length).map (fun k => aLabel (k + 2))))
            y y)
          (rest.getLastD "") (rest.getLastD "") := by
    unfold NM
    rw [hheadI_y, hw, hbase]
  refine ⟨?_, ?_, ?_, ?_⟩
  · have hgety : mapping_get (NM br) y = y := by
      rw [hNM, mapping_get_set_other _ _ _ _ (Ne.symm hw_ne_y), mapping_get_set_self]
    have hgetx : mapping_get (NM br) x = "X" := by
      rw [hNM, mapping_get_set_other _ _ _ _ (Ne.symm hw_ne_x),
        mapping_get_set_other _ _ _ _ (Ne.symm hyx),
        mapping_get_cons, if_neg hyx, mapping_get_cons, if_pos rfl]
    by_cases hsf : br.start_from = "object"
    · have hhs : br.head.subject = y := by
        rw [if_pos hsf] at hy
        exact hy
      have hho : br.head.object = x := by
        rw [if_pos hsf] at hx
        exact hx
      rw [if_pos hsf, hgh, hhs, hho, hgety, hgetx]
    · have hhs : br.head.subject = x := by
        rw [if_neg hsf] at hx
        exact hx
      have hho : br.head.object = y := by
        rw [if_neg hsf] at hy
        exact hy
      rw [if_neg hsf, hgh, hhs, hho, hgety, hgetx]
  · rw [hnm, hNM, mapping_get_set_self]
  · intro i hi
    have hz_mem : rest.get ⟨i, by omega⟩ ∈ rest := List.get_mem _ _ _
    have hz_ne_w : rest.get ⟨i, by omega⟩ ≠ rest.getLastD "" := by
      rw [getLastD_eq_getLast rest "" hrest, List.getLast_eq_get]
      intro he
      have hfin := (List.Nodup.get_inj_iff hrest_nd).mp he
      have hval := congrArg Fin.val hfin
      simp only at hval
      omega
    have hz_ne_y : rest.get ⟨i, by omega⟩ ≠ y := by
      intro he
      apply hy_nin_rest
      rw [← he]
      exact hz_mem
    have hz_ne_x : rest.get ⟨i, by omega⟩ ≠ x := by
      intro he
      apply hx_nin
      rw [← he]
      exact hz_mem
    rw [hnm, hNM, mapping_get_set_other _ _ _ _ hz_ne_w,
      mapping_get_set_other _ _ _ _ hz_ne_y,
      mapping_get_cons, if_neg (fun he => hz_ne_y he.symm),
      mapping_get_cons, if_neg (fun he => hz_ne_x he.symm)]
    exact find_zip_label rest i (by omega) 2 hrest_nd
  · intro i j hij he
    have := aLabel_injective he
    omega

/-- An acyclic bottom rule: head `(a, r, b)`, walk started at the subject
`a` and took one forward step to a fresh node `c`. -/
def brC1 : BottomRule :=
  { head := { subject := "a", relation := "r", object := "b" },
    start_from := "subject",
    body := [{ subject := "a", relation := "s", object := "c" }],
    steps := ["forward"],
    is_cyclical := false,
    visited := {"a", "b", "c"} }

/-- C1, counterexample.  For the acyclic bottom rule `brC1`, the AC1 rule's
generalized head is `(X, r, b)`: its subject position holds the *variable*
`X`, not the constant `a = brC1.head.subject`, so the claim that both head
endpoints become constants equal to the original head entities fails (the
second anchored constant is the final walk node `c`, not a head
endpoint). -/
theorem C1_counterexample :
    (mk_generalized_rule brC1 "AC1" none).map (fun rule => rule.generalized_head)
        = .ok { subject := "X", relation := "r", object := "b", reversed := false }
      ∧ ("X" : String) ≠ brC1.head.subject := by
  constructor
  · decide
  · decide

/-- The `GeneralizedRule` that `mk_generalized_rule brC1 "AC1" none`
produces. -/
def ruleC1 : GeneralizedRule :=
  { bottom_rule := brC1, rule_type := "AC1", AC1_rule_variant := none,
    node_mappings := [("b", "b"), ("a", "X"), ("c", "c")],
    generalized_head := { subject := "X", relation := "r", object := "b" },
    generalized_body := [{ subject := "X", relation := "s", object := "c" }],
    confidence := 0, body_groundings_count := 0, head_groundings_count := 0 }

theorem C1_amended_witness :
    brC1.is_cyclical = false
      ∧ mapping_get ruleC1.node_mappings ((["c"] : List String).getLastD "")
          = (["c"] : List String).getLastD "" :=
  ⟨by decide,
    (C1_amended brC1 ruleC1 "b" "a" ["c"] (by decide) (by decide) (by decide)
        (by decide) (by decide) (by decide)).2.1⟩

/-
Embedding of `calculate_confidence` and its helpers
(src/replication/rule_generalization/GeneralizedRule_withConf.py, lines
102-245).
-/

/-- Python's `value.startswith('A')`: the first character is `A`.
(`String.startsWith` itself is not kernel-reducible, so the check is spelled
on the character list.) -/
def starts_with_A (value : String) : Bool :=
  match value.data with
  | [] => false
  | c :: _ => c == 'A'

/-- `_is_constant`: not an `A…` variable and not `X`/`Y`. -/
def is_constant (value : String) : Bool :=
  !(starts_with_A value || value == "X" || value == "Y")

/-- `grounding.get(k)` as an option (Python `k in grounding` / `grounding[k]`). -/
def grounding_find (g : List (String × String)) (k : String) : Option String :=
  (g.find? (fun p => p.1 == k)).map Prod.snd

/-- `_get_variable_bindings`: body variables that are neither `A…` nor
constants, plus all `A…` values of the node mapping.  (The sampler receives
this set but never reads it, exactly as in the source.) -/
def get_variable_bindings (rule : GeneralizedRule) : Finset String :=
  (rule.generalized_body.foldl (fun acc tr =>
    let acc2 :=
      if starts_with_A tr.subject = false ∧ is_constant tr.subject = false then
        insert tr.subject acc
      else acc
    if starts_with_A tr.object = false ∧ is_constant tr.object = false then
      insert tr.object acc2
    else acc2) ∅)
    ∪ ((rule.node_mappings.map Prod.snd).filter
        (fun v => starts_with_A v)).toFinset

/-- `_check_head_grounding`: substitute the grounding into the head
(defaulting to the head terms themselves) and test `has_fact`. -/
def check_head_grounding (rule : GeneralizedRule) (kg : KnowledgeGraph)
    (grounding : List (String × String)) : Bool :=
  kg.has_fact
    ((grounding_find grounding rule.generalized_head.subject).getD
      rule.generalized_head.subject)
    rule.generalized_head.relation
    ((grounding_find grounding rule.generalized_head.object).getD
      rule.generalized_head.object)

/-- `_bind_triple_variables`: the four cases (both bound / subject bound /
object bound / neither bound), with a single random choice in each sampling
case.  Returns the success flag, the updated grounding and the new oracle
counter. -/
def bind_triple_variables (kg : KnowledgeGraph) (triple : Triple)
    (grounding : List (String × String)) (ρ : Nat → Nat) (t : Nat) :
    Bool × List (String × String) × Nat :=
  match grounding_find grounding triple.subject,
      grounding_find grounding triple.object with
  | some vs, some vo => (kg.has_fact vs triple.relation vo, grounding, t)
  | some vs, none =>
    let possible_objects := kg.adj triple.relation vs
    if hpo : possible_objects = [] then (false, grounding, t)
    else (true,
      mapping_set grounding triple.object (choose ρ t possible_objects hpo),
      t + 1)
  | none, some vo =>
    let possible_subjects := kg.adj_inv triple.relation vo
    if hps : possible_subjects = [] then (false, grounding, t)
    else (true,
      mapping_set grounding triple.subject (choose ρ t possible_subjects hps),
      t + 1)
  | none, none =>
    let keys := kg.adj_keys triple.relation
    if hk : keys = [] then (false, grounding, t)
    else
      let random_subject := choose ρ t keys hk
      let possible_objects := kg.adj triple.relation random_subject
      if hpo : possible_objects = [] then
        (false, mapping_set grounding triple.subject random_subject, t + 1)
      else (true,
        mapping_set (mapping_set grounding triple.subject random_subject)
          triple.object (choose ρ (t + 1) possible_objects hpo),
        t + 2)

/-- The `for triple in self.generalized_body` loop of
`_sample_body_grounding`: left to right, aborting on the first failure. -/
def bind_body_atoms (kg : KnowledgeGraph) (ρ : Nat → Nat) :
    List Triple → List (String × String) → Nat
      → Bool × List (String × String) × Nat
  | [], g, t => (true, g, t)
  | tr :: rest, g, t =>
    match bind_triple_variables kg tr g ρ t with
    | (false, g2, t2) => (false, g2, t2)
    | (true, g2, t2) => bind_body_atoms kg ρ rest g2 t2

/-- The constant pre-binding at the top of each sampling attempt. -/
def bind_constants (body : List Triple) : List (String × String) :=
  body.foldl (fun g tr =>
    let g1 := if is_constant tr.subject then mapping_set g tr.subject tr.subject else g
    if is_constant tr.object then mapping_set g1 tr.object tr.object else g1) []

/-- `_sample_body_grounding` with its `max_attempts = 50` retry loop. -/
def sample_body_grounding_aux (rule : GeneralizedRule) (kg : KnowledgeGraph)
    (ρ : Nat → Nat) : Nat → Nat → Option (List (String × String)) × Nat
  | 0, t => (none, t)
  | att + 1, t =>
    let grounding := bind_constants rule.generalized_body
    match bind_body_atoms kg ρ rule.generalized_body grounding t with
    | (true, g, t2) => (some g, t2)
    | (false, _, t2) => sample_body_grounding_aux rule kg ρ att t2

def sample_body_grounding (rule : GeneralizedRule) (kg : KnowledgeGraph)
    (vars : Finset String) (ρ : Nat → Nat) (t : Nat) :
    Option (List (String × String)) × Nat :=
  sample_body_grounding_aux rule kg ρ 50 t

/-- The `for _ in range(sample_size)` loop of `calculate_confidence`,
accumulating the two counters.  `if not grounding: continue` means both a
failed attempt (`None`) and an empty grounding dict are skipped. -/
def confidence_loop (rule : GeneralizedRule) (kg : KnowledgeGraph)
    (ρ : Nat → Nat) : Nat → Nat → Nat → Nat → Nat × Nat × Nat
  | 0, b, h, t => (b, h, t)
  | s + 1, b, h, t =>
    match sample_body_grounding rule kg (get_variable_bindings rule) ρ t with
    | (none, t2) => confidence_loop rule kg ρ s b h t2
    | (some g, t2) =>
      if g = [] then confidence_loop rule kg ρ s b h t2
      else if check_head_grounding rule kg g then
        confidence_loop rule kg ρ s (b + 1) (h + 1) t2
      else
        confidence_loop rule kg ρ s (b + 1) h t2

/-- `calculate_confidence(kg, sample_size, pc)`: reset both counters, run
the sampling loop, then apply the smoothed ratio (or `0.0` when no body
grounding was found).  Returns the updated rule and oracle counter. -/
def calculate_confidence (rule : GeneralizedRule) (kg : KnowledgeGraph)
    (sample_size : Nat) (pc : ℚ) (ρ : Nat → Nat) (t : Nat) :
    GeneralizedRule × Nat :=
  let res := confidence_loop rule kg ρ sample_size 0 0 t
  ({ rule with
      body_groundings_count := res.1,
      head_groundings_count := res.2.1,
      confidence :=
        if res.1 > 0 then ((res.2.1 : ℚ) + pc) / ((res.1 : ℚ) + pc) else 0 },
    res.2.2)

theorem confidence_loop_spec (rule : GeneralizedRule) (kg : KnowledgeGraph)
    (ρ : Nat → Nat) : ∀ (s b h t : Nat), h ≤ b →
    (confidence_loop rule kg ρ s b h t).2.1 ≤ (confidence_loop rule kg ρ s b h t).1
      ∧ (confidence_loop rule kg ρ s b h t).1 ≤ b + s := by
  intro s
  induction s with
  | zero =>
    intro b h t hb
    refine ⟨hb, ?_⟩
    show b ≤ b + 0
    omega
  | succ s ih =>
    intro b h t hb
    rcases hsamp : sample_body_grounding rule kg (get_variable_bindings rule) ρ t
      with ⟨g, t2⟩
    cases g with
    | none =>
      have hred : confidence_loop rule kg ρ (s + 1) b h t
          = confidence_loop rule kg ρ s b h t2 := by
        rw [confidence_loop, hsamp]
      rw [hred]
      obtain ⟨h1, h2⟩ := ih b h t2 hb
      exact ⟨h1, by omega⟩
    | some gr =>
      have hred : confidence_loop rule kg ρ (s + 1) b h t
          = (if gr = [] then confidence_loop rule kg ρ s b h t2
            else if check_head_grounding rule kg gr = true then
              confidence_loop rule kg ρ s (b + 1) (h + 1) t2
            else confidence_loop rule kg ρ s (b + 1) h t2) := by
        rw [confidence_loop, hsamp]
      rw [hred]
      by_cases hge : gr = []
      · rw [if_pos hge]
        obtain ⟨h1, h2⟩ := ih b h t2 hb
        exact ⟨h1, by omega⟩
      · rw [if_neg hge]
        by_cases hchk : check_head_grounding rule kg gr = true
        · rw [if_pos hchk]
          obtain ⟨h1, h2⟩ := ih (b + 1) (h + 1) t2 (by omega)
          exact ⟨h1, by omega⟩
        · rw [if_neg hchk]
          obtain ⟨h1, h2⟩ := ih (b + 1) h t2 (by omega)
          exact ⟨h1, by omega⟩

/-- C5.  After `calculate_confidence(kg, sample_size, pc)` with `pc ≥ 0`:
the counters satisfy `head ≤ body ≤ sample_size`; the confidence is
`(h + pc) / (b + pc)` when `b > 0` and `0` when `b = 0` (for every `pc`);
it always lies in `[0, 1]`; and counters `h = 2, b = 4` with `pc = 5` give
`7/9`. -/
theorem C5_confidence (rule : GeneralizedRule) (kg : KnowledgeGraph)
    (sample_size : Nat) (pc : ℚ) (ρ : Nat → Nat) (t : Nat) (hpc : 0 ≤ pc) :
    ((calculate_confidence rule kg sample_size pc ρ t).1).head_groundings_count
        ≤ ((calculate_confidence rule kg sample_size pc ρ t).1).body_groundings_count
      ∧ ((calculate_confidence rule kg sample_size pc ρ t).1).body_groundings_count
          ≤ sample_size
      ∧ (0 < ((calculate_confidence rule kg sample_size pc ρ t).1).body_groundings_count →
          ((calculate_confidence rule kg sample_size pc ρ t).1).confidence
            = ((((calculate_confidence rule kg sample_size pc ρ t).1).head_groundings_count : ℚ) + pc)
                / ((((calculate_confidence rule kg sample_size pc ρ t).1).body_groundings_count : ℚ) + pc))
      ∧ (((calculate_confidence rule kg sample_size pc ρ t).1).body_groundings_count = 0 →
          ((calculate_confidence rule kg sample_size pc ρ t).1).confidence = 0)
      ∧ 0 ≤ ((calculate_confidence rule kg sample_size pc ρ t).1).confidence
      ∧ ((calculate_confidence rule kg sample_size pc ρ t).1).confidence ≤ 1
      ∧ (((calculate_confidence rule kg sample_size pc ρ t).1).body_groundings_count = 4 →
          ((calculate_confidence rule kg sample_size pc ρ t).1).head_groundings_count = 2 →
          pc = 5 →
          ((calculate_confidence rule kg sample_size pc ρ t).1).confidence = 7 / 9) := by
  obtain ⟨hhb, hbs⟩ :=
    confidence_loop_spec rule kg ρ sample_size 0 0 t (le_refl 0)
  have hb : ((calculate_confidence rule kg sample_size pc ρ t).1).body_groundings_count
      = (confidence_loop rule kg ρ sample_size 0 0 t).1 := rfl
  have hh : ((calculate_confidence rule kg sample_size pc ρ t).1).head_groundings_count
      = (confidence_loop rule kg ρ sample_size 0 0 t).2.1 := rfl
  have hc : ((calculate_confidence rule kg sample_size pc ρ t).1).confidence
      = if 0 < (confidence_loop rule kg ρ sample_size 0 0 t).1 then
          (((confidence_loop rule kg ρ sample_size 0 0 t).2.1 : ℚ) + pc)
            / (((confidence_loop rule kg ρ sample_size 0 0 t).1 : ℚ) + pc)
        else 0 := rfl
  have hconf01 :
      0 ≤ ((calculate_confidence rule kg sample_size pc ρ t).1).confidence
        ∧ ((calculate_confidence rule kg sample_size pc ρ t).1).confidence ≤ 1 := by
    rw [hc]
    by_cases hpos : 0 < (confidence_loop rule kg ρ sample_size 0 0 t).1
    · rw [if_pos hpos]
      have hden : (0 : ℚ) < ((confidence_loop rule kg ρ sample_size 0 0 t).1 : ℚ) + pc := by
        have h1 : (1 : ℚ) ≤ ((confidence_loop rule kg ρ sample_size 0 0 t).1 : ℚ) := by
          exact_mod_cast hpos
        linarith
      constructor
      · apply div_nonneg _ (le_of_lt hden)
        have : (0 : ℚ) ≤ ((confidence_loop rule kg ρ sample_size 0 0 t).2.1 : ℚ) := by
          positivity
        linarith
      · rw [div_le_one hden]
        have : ((confidence_loop rule kg ρ sample_size 0 0 t).2.1 : ℚ)
            ≤ ((confidence_loop rule kg ρ sample_size 0 0 t).1 : ℚ) := by
          exact_mod_cast hhb
        linarith
    · rw [if_neg hpos]
      norm_num
  refine ⟨by rw [hb, hh]; exact hhb, by rw [hb]; omega, ?_, ?_, hconf01.1, hconf01.2, ?_⟩
  · intro hpos
    rw [hb] at hpos
    rw [hc, hh, hb, if_pos hpos]
  · intro hzero
    rw [hb] at hzero
    rw [hc, if_neg (by omega)]
  · intro h4 h2 h5
    rw [hb] at h4
    rw [hh] at h2
    rw [hc, if_pos (by omega), h4, h2, h5]
    norm_num

/-- C10.  `calculate_confidence` updates only the `confidence`,
`body_groundings_count` and `head_groundings_count` fields of the rule;
`node_mappings`, `generalized_head`, `generalized_body`, `rule_type`,
`AC1_rule_variant` and `bottom_rule` are unchanged. -/
theorem C10_frame (rule : GeneralizedRule) (kg : KnowledgeGraph)
    (sample_size : Nat) (pc : ℚ) (ρ : Nat → Nat) (t : Nat) :
    ((calculate_confidence rule kg sample_size pc ρ t).1).node_mappings
        = rule.node_mappings
      ∧ ((calculate_confidence rule kg sample_size pc ρ t).1).generalized_head
          = rule.generalized_head
      ∧ ((calculate_confidence rule kg sample_size pc ρ t).1).generalized_body
          = rule.generalized_body
      ∧ ((calculate_confidence rule kg sample_size pc ρ t).1).rule_type
          = rule.rule_type
      ∧ ((calculate_confidence rule kg sample_size pc ρ t).1).AC1_rule_variant
          = rule.AC1_rule_variant
      ∧ ((calculate_confidence rule kg sample_size pc ρ t).1).bottom_rule
          = rule.bottom_rule :=
  ⟨rfl, rfl, rfl, rfl, rfl, rfl⟩

/-- A graph with four `s`-edges, two of which are confirmed by an `r`-fact:
sampling the body `s(X, Y)` once per subject yields 4 body groundings of
which 2 satisfy the head `r(X, Y)`. -/
def kgC5 : KnowledgeGraph :=
  ⟨[{ subject := "a", relation := "s", object := "b" },
    { subject := "c", relation := "s", object := "d" },
    { subject := "e", relation := "s", object := "f" },
    { subject := "g", relation := "s", object := "h" },
    { subject := "a", relation := "r", object := "b" },
    { subject := "c", relation := "r", object := "d" }]⟩

/-- A closed rule `r(X, Y) <- s(X, Y)`. -/
def ruleC5 : GeneralizedRule :=
  { bottom_rule := brAB, rule_type := "C", AC1_rule_variant := none,
    node_mappings := [("b", "Y"), ("a", "X")],
    generalized_head := { subject := "X", relation := "r", object := "Y" },
    generalized_body := [{ subject := "X", relation := "s", object := "Y" }],
    confidence := 0, body_groundings_count := 0, head_groundings_count := 0 }

/-- An oracle that picks subject 0, 1, 2, 3 in the four samples. -/
def ρC5 : Nat → Nat := fun t => if t % 2 = 0 then t / 2 else 0

theorem C5_confidence_witness :
    (0 : ℚ) ≤ 5
      ∧ ((calculate_confidence ruleC5 kgC5 4 5 ρC5 0).1).confidence = 7 / 9 :=
  ⟨by norm_num,
    (C5_confidence ruleC5 kgC5 4 5 ρC5 0 (by norm_num)).2.2.2.2.2.2
      (by decide) (by decide) rfl⟩

/-
Embedding of src/algorithm/rule_prediction.py.
-/

/-- `_bind_variables` inside `_complete_grounding`: only three cases are
implemented — both endpoints bound (fact check), subject bound (enumerate
`adj`), object bound (enumerate `adj_inv`).  An atom with *neither* endpoint
bound falls through all three branches and contributes no bindings. -/
def bind_variables (kg : KnowledgeGraph) (triple : Triple)
    (current_grounding : List (String × String)) :
    List (List (String × String)) :=
  match grounding_find current_grounding triple.subject,
      grounding_find current_grounding triple.object with
  | some vs, some vo =>
    if kg.has_fact vs triple.relation vo then [current_grounding] else []
  | some vs, none =>
    (kg.adj triple.relation vs).map
      (fun o => mapping_set current_grounding triple.object o)
  | none, some vo =>
    (kg.adj_inv triple.relation vo).map
      (fun s => mapping_set current_grounding triple.subject s)
  | none, none => []

/-- The `for body_triple in rule.generalized_body` loop of
`_complete_grounding`, with its early stop on an empty working list. -/
def complete_grounding_atoms (kg : KnowledgeGraph) :
    List Triple → List (List (String × String)) → List (List (String × String))
  | [], gs => gs
  | tr :: rest, gs =>
    let new_groundings := gs.flatMap (fun g => bind_variables kg tr g)
    if new_groundings = [] then new_groundings
    else complete_grounding_atoms kg rest new_groundings

/-- `_complete_grounding(rule, partial_grounding)`. -/
def complete_grounding (kg : KnowledgeGraph) (rule : GeneralizedRule)
    (partial_grounding : List (String × String)) :
    List (List (String × String)) :=
  complete_grounding_atoms kg rule.generalized_body [partial_grounding]

/-- Modelled from the spec (for the refinement comparison of C2): body
completion that enumerates "all bindings consistent with the atom using the
same four cases as the confidence sampler", including the fourth case —
neither endpoint bound: all subject-object pairs connected by the
relation. -/
def spec_bind_variables (kg : KnowledgeGraph) (triple : Triple)
    (current_grounding : List (String × String)) :
    List (List (String × String)) :=
  match grounding_find current_grounding triple.subject,
      grounding_find current_grounding triple.object with
  | some vs, some vo =>
    if kg.has_fact vs triple.relation vo then [current_grounding] else []
  | some vs, none =>
    (kg.adj triple.relation vs).map
      (fun o => mapping_set current_grounding triple.object o)
  | none, some vo =>
    (kg.adj_inv triple.relation vo).map
      (fun s => mapping_set current_grounding triple.subject s)
  | none, none =>
    (kg.adj_keys triple.relation).flatMap (fun s =>
      (kg.adj triple.relation s).map (fun o =>
        mapping_set (mapping_set current_grounding triple.subject s)
          triple.object o))

/-- Modelled from the spec: the same left-to-right working-list evaluation,
but with the four-case binder. -/
def spec_complete_grounding_atoms (kg : KnowledgeGraph) :
    List Triple → List (List (String × String)) → List (List (String × String))
  | [], gs => gs
  | tr :: rest, gs =>
    let new_groundings := gs.flatMap (fun g => spec_bind_variables kg tr g)
    if new_groundings = [] then new_groundings
    else spec_complete_grounding_atoms kg rest new_groundings

def spec_complete_grounding (kg : KnowledgeGraph) (rule : GeneralizedRule)
    (partial_grounding : List (String × String)) :
    List (List (String × String)) :=
  spec_complete_grounding_atoms kg rule.generalized_body [partial_grounding]

/-- A single `s`-edge, enough to make the spec's fourth case productive. -/
def kgC2 : KnowledgeGraph :=
  ⟨[{ subject := "a", relation := "s", object := "d" }]⟩

/-- C2, counterexample.  `ruleC1` is really produced by the generalizer; its
body atom `s(X, c)` has neither endpoint bound under the empty initial
grounding, so the code's three-case completion returns no groundings, while
the four-case completion the claim describes returns one. -/
theorem C2_counterexample :
    mk_generalized_rule brC1 "AC1" none = .ok ruleC1
      ∧ complete_grounding kgC2 ruleC1 [] = []
      ∧ spec_complete_grounding kgC2 ruleC1 [] ≠ [] := by
  refine ⟨by decide, by decide, by decide⟩

/-- Declarative three-case binding relation of the predictor: exactly the
bindings the code's `_bind_variables` can produce. -/
def BindSpec (kg : KnowledgeGraph) (atom : Triple)
    (g g2 : List (String × String)) : Prop :=
  (∃ vs vo, grounding_find g atom.subject = some vs
      ∧ grounding_find g atom.object = some vo
      ∧ kg.has_fact vs atom.relation vo = true ∧ g2 = g)
    ∨ (∃ vs o, grounding_find g atom.subject = some vs
        ∧ grounding_find g atom.object = none
        ∧ o ∈ kg.adj atom.relation vs ∧ g2 = mapping_set g atom.object o)
    ∨ (∃ vo s, grounding_find g atom.subject = none
        ∧ grounding_find g atom.object = some vo
        ∧ s ∈ kg.adj_inv atom.relation vo ∧ g2 = mapping_set g atom.subject s)

/-- Declarative left-to-right completion through `BindSpec`. -/
def CompletesSpec (kg : KnowledgeGraph) :
    List Triple → List (String × String) → List (String × String) → Prop
  | [], g, g2 => g2 = g
  | a :: rest, g, g2 => ∃ gm, BindSpec kg a g gm ∧ CompletesSpec kg rest gm g2

theorem mem_bind_variables {kg : KnowledgeGraph} {atom : Triple}
    {g g2 : List (String × String)} :
    g2 ∈ bind_variables kg atom g ↔ BindSpec kg atom g g2 := by
  unfold bind_variables BindSpec
  rcases hs : grounding_find g atom.subject with _ | vs <;>
    rcases ho : grounding_find g atom.object with _ | vo
  · simp [hs, ho]
  · simp [hs, ho]
    exact exists_congr fun s => and_congr_right fun _ => eq_comm
  · simp [hs, ho]
    exact exists_congr fun o => and_congr_right fun _ => eq_comm
  · by_cases hf : kg.has_fact vs atom.relation vo = true
    · simp [hs, ho, hf]
    · simp [hs, ho, hf]

theorem mem_complete_grounding_atoms (kg : KnowledgeGraph) :
    ∀ (atoms : List Triple) (gs : List (List (String × String)))
      (g2 : List (String × String)),
    g2 ∈ complete_grounding_atoms kg atoms gs
      ↔ ∃ g ∈ gs, CompletesSpec kg atoms g g2 := by
  intro atoms
  induction atoms with
  | nil =>
    intro gs g2
    simp only [complete_grounding_atoms, CompletesSpec]
    constructor
    · intro hmem
      exact ⟨g2, hmem, rfl⟩
    · rintro ⟨g, hg, rfl⟩
      exact hg
  | cons a rest ih =>
    intro gs g2
    rw [complete_grounding_atoms]
    by_cases hemp : gs.flatMap (fun g => bind_variables kg a g) = []
    · rw [if_pos hemp, hemp]
      simp only [List.not_mem_nil, false_iff]
      rintro ⟨g, hg, gm, hbind, -⟩
      have : gm ∈ gs.flatMap (fun g => bind_variables kg a g) :=
        List.mem_flatMap.mpr ⟨g, hg, mem_bind_variables.mpr hbind⟩
      rw [hemp] at this
      exact List.not_mem_nil _ this
    · rw [if_neg hemp, ih]
      constructor
      · rintro ⟨gm, hgm, hcomp⟩
        obtain ⟨g, hg, hbind⟩ := List.mem_flatMap.mp hgm
        exact ⟨g, hg, gm, mem_bind_variables.mp hbind, hcomp⟩
      · rintro ⟨g, hg, gm, hbind, hcomp⟩
        exact ⟨gm, List.mem_flatMap.mpr ⟨g, hg, mem_bind_variables.mpr hbind⟩, hcomp⟩

/-- C2, amended.  The predictor's body completion enumerates, left to right
over the body atoms, all bindings consistent with each atom under only
*three* of the confidence sampler's four cases — both endpoints bound (fact
check), subject bound (all objects of `adj[r][subj]`), object bound (all
subjects of `adj_inv[r][obj]`); an atom with neither endpoint bound yields
no bindings at all, so any grounding reaching such an atom is dropped.  It
returns exactly the set of full groundings reachable from the initial
grounding through those three cases. -/
theorem C2_amended (kg : KnowledgeGraph) (rule : GeneralizedRule)
    (g0 g2 : List (String × String)) :
    g2 ∈ complete_grounding kg rule g0
      ↔ CompletesSpec kg rule.generalized_body g0 g2 := by
  unfold complete_grounding
  rw [mem_complete_grounding_atoms]
  simp

/-
Embedding of src/algorithm/rule_prediction.py (`RulePrediction`).

The `rules` dictionary is an association list in insertion order (Python
dicts preserve it); `defaultdict(list)` candidate maps are association
lists with append-on-existing-key; `sorted(..., reverse=True)`,
`list.sort(..., reverse=True)` and `heapq.nlargest(k, ..., key)` (documented
as `sorted(..., key=key, reverse=True)[:n]`) are all the same stable
descending sort, embedded as a stable insertion sort; Python tuple `<` on
confidence tuples is `pyListLt`.
-/

/-- Python tuple comparison `a < b` on lists of rationals: lexicographic,
with a shorter tuple smaller than any proper extension. -/
def pyListLt : List ℚ → List ℚ → Bool
  | [], [] => false
  | [], _ :: _ => true
  | _ :: _, [] => false
  | a :: la, b :: lb =>
    if a < b then true else if b < a then false else pyListLt la lb

/-- One step of the stable descending insertion sort: `x` (an earlier list
element) is placed before the first `y` it is not strictly below, so equal
elements keep their original relative order. -/
def insert_desc {α : Type} (lt : α → α → Bool) (x : α) : List α → List α
  | [] => [x]
  | y :: ys => if lt x y then y :: insert_desc lt x ys else x :: y :: ys

/-- Stable descending sort by the strict comparison `lt`: the embedding of
CPython's stable `sorted(..., reverse=True)`. -/
def sort_desc {α : Type} (lt : α → α → Bool) (l : List α) : List α :=
  l.foldr (insert_desc lt) []

/-- `__init__`: index the rules by head relation (in `rules.values()`
order), then sort each bucket by confidence, descending and stable. -/
def rules_by_relation (rules : List (String × GeneralizedRule))
    (relation : String) : List GeneralizedRule :=
  sort_desc (fun a b => decide (a.confidence < b.confidence))
    ((rules.map Prod.snd).filter
      (fun r => r.generalized_head.relation == relation))

/-- `_apply_rule_tail`: seed the grounding from the head subject (a
variable binds the query subject; a constant must equal it), complete it
through the body, then read a prediction off each completed grounding
according to the head object. -/
def apply_rule_tail (kg : KnowledgeGraph) (rule : GeneralizedRule)
    (subject : String) : List (String × ℚ) :=
  let g0 : Option (List (String × String)) :=
    if rule.generalized_head.subject == "Y" then some [("Y", subject)]
    else if rule.generalized_head.subject == "X" then some [("X", subject)]
    else if rule.generalized_head.subject == subject then
      some [(subject, subject)]
    else none
  match g0 with
  | none => []
  | some g =>
    (complete_grounding kg rule g).filterMap (fun grounding =>
      if rule.generalized_head.object == "X" then
        (grounding_find grounding ("X")).map (fun v => (v, rule.confidence))
      else if rule.generalized_head.object == "Y" then
        (grounding_find grounding ("Y")).map (fun v => (v, rule.confidence))
      else some (rule.generalized_head.object, rule.confidence))

/-- `candidates[obj].append(conf)` on the `defaultdict(list)`: an existing
key keeps its position and gets the confidence appended; a new key is
appended at the end with a singleton list. -/
def add_candidate : List (String × List ℚ) → String → ℚ →
    List (String × List ℚ)
  | [], obj, conf => [(obj, [conf])]
  | (o, cs) :: rest, obj, conf =>
    if o == obj then (o, cs ++ [conf]) :: rest
    else (o, cs) :: add_candidate rest obj conf

/-- The candidate-collection loop of `predict_tail`: over the
confidence-sorted applicable rules, apply each and record every predicted
object with that rule's confidence. -/
def prediction_candidates (kg : KnowledgeGraph)
    (rules : List (String × GeneralizedRule)) (subject relation : String) :
    List (String × List ℚ) :=
  (rules_by_relation rules relation).foldl
    (fun cands rule =>
      (apply_rule_tail kg rule subject).foldl
        (fun cs p => add_candidate cs p.1 p.2) cands) []

/-- The aggregation loop of `predict_tail`: each candidate's confidence
list is sorted descending and padded with zeros to length `k` (no padding
when it is already at least that long). -/
def prediction_aggregated (k : Nat) (cands : List (String × List ℚ)) :
    List (String × List ℚ) :=
  cands.map (fun p =>
    (p.1, sort_desc (fun a b : ℚ => decide (a < b)) p.2
            ++ List.replicate (k - p.2.length) 0))

/-- `predict_tail(subject, relation, k)`: the top `k` aggregated candidates
under descending tuple-lex order, each paired with the first entry of its
confidence tuple. -/
def predict_tail (kg : KnowledgeGraph)
    (rules : List (String × GeneralizedRule)) (subject relation : String)
    (k : Nat) : List (String × ℚ) :=
  ((sort_desc (fun a b => pyListLt a.2 b.2)
      (prediction_aggregated k
        (prediction_candidates kg rules subject relation))).take k).map
    (fun p => (p.1, p.2.headI))

theorem insert_desc_perm {α : Type} (lt : α → α → Bool) (x : α) :
    ∀ l : List α, (insert_desc lt x l).Perm (x :: l) := by
  intro l
  induction l with
  | nil => exact List.Perm.refl _
  | cons y ys ih =>
    rw [insert_desc]
    by_cases h : lt x y = true
    · rw [if_pos h]
      exact (ih.cons y).trans (List.Perm.swap x y ys)
    · rw [if_neg h]

theorem sort_desc_perm {α : Type} (lt : α → α → Bool) :
    ∀ l : List α, (sort_desc lt l).Perm l := by
  intro l
  induction l with
  | nil => exact List.Perm.refl _
  | cons x xs ih =>
    exact (insert_desc_perm lt x (sort_desc lt xs)).trans (ih.cons x)

theorem insert_desc_pairwise {α : Type} (lt : α → α → Bool)
    (hasym : ∀ a b, lt a b = true → lt b a = false)
    (hnegtrans : ∀ a b c, lt a b = false → lt b c = false → lt a c = false)
    (x : α) :
    ∀ l : List α, l.Pairwise (fun a b => lt a b = false) →
      (insert_desc lt x l).Pairwise (fun a b => lt a b = false) := by
  intro l
  induction l with
  | nil => intro _; simp [insert_desc]
  | cons y ys ih =>
    intro hl
    rw [List.pairwise_cons] at hl
    rw [insert_desc]
    by_cases h : lt x y = true
    · rw [if_pos h]
      rw [List.pairwise_cons]
      refine ⟨?_, ih hl.2⟩
      intro w hw
      rcases List.mem_cons.mp (((insert_desc_perm lt x ys).mem_iff).mp hw)
        with hwx | hwys
      · rw [hwx]; exact hasym x y h
      · exact hl.1 w hwys
    · rw [if_neg h]
      rw [List.pairwise_cons]
      refine ⟨?_, List.pairwise_cons.mpr hl⟩
      intro w hw
      rcases List.mem_cons.mp hw with hwy | hwys
      · rw [hwy]; exact eq_false_of_ne_true h
      · exact hnegtrans x y w (eq_false_of_ne_true h) (hl.1 w hwys)

theorem sort_desc_pairwise {α : Type} (lt : α → α → Bool)
    (hasym : ∀ a b, lt a b = true → lt b a = false)
    (hnegtrans : ∀ a b c, lt a b = false → lt b c = false → lt a c = false) :
    ∀ l : List α, (sort_desc lt l).Pairwise (fun a b => lt a b = false) := by
  intro l
  induction l with
  | nil => simp [sort_desc]
  | cons x xs ih =>
    exact insert_desc_pairwise lt hasym hnegtrans x (sort_desc lt xs) ih

theorem pyListLt_asymm :
    ∀ a b : List ℚ, pyListLt a b = true → pyListLt b a = false := by
  intro a
  induction a with
  | nil =>
    intro b h
    cases b with
    | nil => simpa [pyListLt] using h
    | cons y ys => rfl
  | cons x xs ih =>
    intro b h
    cases b with
    | nil => simpa [pyListLt] using h
    | cons y ys =>
      rw [pyListLt] at h ⊢
      by_cases hxy : x < y
      · rw [if_neg (lt_asymm hxy), if_pos hxy]
      · rw [if_neg hxy] at h
        by_cases hyx : y < x
        · rw [if_pos hyx] at h
          exact absurd h (by simp)
        · rw [if_neg hyx] at h
          rw [if_neg hyx, if_neg hxy]
          exact ih ys h

theorem pyListLt_negtrans :
    ∀ a b c : List ℚ, pyListLt a b = false → pyListLt b c = false →
      pyListLt a c = false := by
  intro a
  induction a with
  | nil =>
    intro b c hab hbc
    cases b with
    | nil => exact hbc
    | cons y ys => exact absurd hab (by simp [pyListLt])
  | cons x xs ih =>
    intro b c hab hbc
    cases c with
    | nil => rfl
    | cons z zs =>
      cases b with
      | nil => exact absurd hbc (by simp [pyListLt])
      | cons y ys =>
        rw [pyListLt] at hab hbc ⊢
        by_cases hxy : x < y
        · rw [if_pos hxy] at hab
          exact absurd hab (by simp)
        · rw [if_neg hxy] at hab
          by_cases hyz : y < z
          · rw [if_pos hyz] at hbc
            exact absurd hbc (by simp)
          · rw [if_neg hyz] at hbc
            have hyx : y ≤ x := le_of_not_lt hxy
            have hzy : z ≤ y := le_of_not_lt hyz
            have hzx : z ≤ x := le_trans hzy hyx
            rw [if_neg (not_lt_of_le hzx)]
            by_cases hzx2 : z < x
            · rw [if_pos hzx2]
            · rw [if_neg hzx2]
              have hxz : x ≤ z := le_of_not_lt hzx2
              have hxy2 : x = y := le_antisymm
                (le_trans hxz hzy) hyx
              have hyz2 : y = z := le_antisymm
                (hxy2 ▸ hxz) hzy
              have hnyx : ¬ y < x := by
                rw [hxy2]; exact lt_irrefl y
              have hnzy : ¬ z < y := by
                rw [hyz2]; exact lt_irrefl z
              rw [if_neg hnyx] at hab
              rw [if_neg hnzy] at hbc
              exact ih ys zs hab hbc

theorem qlt_asymm :
    ∀ a b : ℚ, decide (a < b) = true → decide (b < a) = false := by
  intro a b h
  simp only [decide_eq_true_eq] at h
  simp [lt_asymm h]

theorem qlt_negtrans :
    ∀ a b c : ℚ, decide (a < b) = false → decide (b < c) = false →
      decide (a < c) = false := by
  intro a b c hab hbc
  simp only [decide_eq_false_iff_not] at hab hbc
  simp [not_lt_of_le (le_trans (le_of_not_lt hbc) (le_of_not_lt hab))]

theorem headI_append_ne {l m : List ℚ} (h : l ≠ []) :
    (l ++ m).headI = l.headI := by
  cases l with
  | nil => exact absurd rfl h
  | cons x xs => rfl

/-- The first element of the stable descending sort of a non-empty list of
rationals belongs to the list and dominates every element. -/
theorem sort_desc_headI_max (confs : List ℚ) (hne : confs ≠ []) :
    (sort_desc (fun a b : ℚ => decide (a < b)) confs).headI ∈ confs
      ∧ ∀ w ∈ confs,
          w ≤ (sort_desc (fun a b : ℚ => decide (a < b)) confs).headI := by
  have hperm := sort_desc_perm (fun a b : ℚ => decide (a < b)) confs
  have hpw := sort_desc_pairwise (fun a b : ℚ => decide (a < b))
    qlt_asymm qlt_negtrans confs
  cases hs : sort_desc (fun a b : ℚ => decide (a < b)) confs with
  | nil =>
    exfalso
    rw [hs] at hperm
    exact hne (List.Perm.nil_eq hperm).symm
  | cons h t =>
    rw [hs] at hperm hpw
    rw [List.pairwise_cons] at hpw
    constructor
    · exact hperm.mem_iff.mp (List.mem_cons_self h t)
    · intro w hw
      rcases List.mem_cons.mp (hperm.mem_iff.mpr hw) with hwh | hwt
      · rw [hwh]; simp
      · have := hpw.1 w hwt
        simp only [decide_eq_false_iff_not] at this
        simpa using le_of_not_lt this

theorem add_candidate_snd_ne_nil {cands : List (String × List ℚ)}
    (h : ∀ e ∈ cands, e.2 ≠ ([] : List ℚ)) (obj : String) (conf : ℚ) :
    ∀ e ∈ add_candidate cands obj conf, e.2 ≠ ([] : List ℚ) := by
  induction cands with
  | nil =>
    intro e he
    rw [add_candidate] at he
    rcases List.mem_singleton.mp he with rfl
    simp
  | cons p rest ih =>
    intro e he
    obtain ⟨o, cs⟩ := p
    rw [add_candidate] at he
    by_cases ho : (o == obj) = true
    · rw [if_pos ho] at he
      rcases List.mem_cons.mp he with rfl | hrest
      · simp
      · exact h e (List.mem_cons_of_mem _ hrest)
    · rw [if_neg ho] at he
      rcases List.mem_cons.mp he with rfl | hrest
      · exact h _ (List.mem_cons_self _ _)
      · exact ih (fun e2 he2 => h e2 (List.mem_cons_of_mem _ he2)) e hrest

theorem foldl_add_candidate_snd_ne_nil (ps : List (String × ℚ)) :
    ∀ cands : List (String × List ℚ),
      (∀ e ∈ cands, e.2 ≠ ([] : List ℚ)) →
      ∀ e ∈ ps.foldl (fun cs p => add_candidate cs p.1 p.2) cands,
        e.2 ≠ ([] : List ℚ) := by
  induction ps with
  | nil => intro cands h e he; exact h e he
  | cons p rest ih =>
    intro cands h e he
    exact ih _ (add_candidate_snd_ne_nil h p.1 p.2) e he

theorem foldl_rules_snd_ne_nil (kg : KnowledgeGraph) (subject : String)
    (rs : List GeneralizedRule) :
    ∀ cands : List (String × List ℚ),
      (∀ e ∈ cands, e.2 ≠ ([] : List ℚ)) →
      ∀ e ∈ rs.foldl
          (fun cands rule =>
            (apply_rule_tail kg rule subject).foldl
              (fun cs p => add_candidate cs p.1 p.2) cands) cands,
        e.2 ≠ ([] : List ℚ) := by
  induction rs with
  | nil => intro cands h e he; exact h e he
  | cons r rest ih =>
    intro cands h e he
    exact ih _ (foldl_add_candidate_snd_ne_nil _ _ h) e he

/-- Every candidate collected by the predictor carries at least one
confidence: an entry is only ever created together with its first
confidence. -/
theorem prediction_candidates_snd_ne_nil (kg : KnowledgeGraph)
    (rules : List (String × GeneralizedRule)) (subject relation : String) :
    ∀ e ∈ prediction_candidates kg rules subject relation,
      e.2 ≠ ([] : List ℚ) := by
  intro e he
  exact foldl_rules_snd_ne_nil kg subject _ [] (by simp) e he

/-- A four-rule instance for the tuple-lex ranking example: one rule of
confidence 9/10 predicting `x`, three rules of confidence 4/5 all
predicting `y`. -/
def ruleC8a : GeneralizedRule :=
  { bottom_rule :=
      { head := ⟨"a", "r", "x", false⟩,
        start_from := "subject",
        visited := ∅ },
    rule_type := "C",
    generalized_head := ⟨"Y", "r", "X", false⟩,
    generalized_body := [⟨"Y", "s1", "X", false⟩],
    confidence := mkRat 9 10 }

def ruleC8b : GeneralizedRule :=
  { ruleC8a with
    generalized_body := [⟨"Y", "s2", "X", false⟩],
    confidence := mkRat 4 5 }

def ruleC8c : GeneralizedRule :=
  { ruleC8a with
    generalized_body := [⟨"Y", "s3", "X", false⟩],
    confidence := mkRat 4 5 }

def ruleC8d : GeneralizedRule :=
  { ruleC8a with
    generalized_body := [⟨"Y", "s4", "X", false⟩],
    confidence := mkRat 4 5 }

def rulesC8 : List (String × GeneralizedRule) :=
  [("r1", ruleC8a), ("r2", ruleC8b), ("r3", ruleC8c), ("r4", ruleC8d)]

def kgC8 : KnowledgeGraph :=
  ⟨[⟨"a", "s1", "x", false⟩, ⟨"a", "s2", "y", false⟩,
    ⟨"a", "s3", "y", false⟩, ⟨"a", "s4", "y", false⟩]⟩

/-- C8.  `predict_tail(subject, relation, k)` scores each candidate by the
tuple of its rule confidences sorted in descending order and padded with
zeros to length `k`, and returns the top `k` candidates under descending
lexicographic comparison of these tuples (the returned list arises from a
tuple-lex non-increasing reordering of the aggregated candidates), each
candidate paired with its best confidence; in particular, with `k = 3`, the
candidate with confidences `[9/10]` ranks above the candidate with
confidences `[4/5, 4/5, 4/5]`. -/
theorem C8_predict_tail :
    (∀ (kg : KnowledgeGraph) (rules : List (String × GeneralizedRule))
        (subject relation : String) (k : Nat),
      ∃ agg_sorted : List (String × List ℚ),
        agg_sorted.Perm (prediction_aggregated k
          (prediction_candidates kg rules subject relation))
        ∧ agg_sorted.Pairwise (fun a b => pyListLt a.2 b.2 = false)
        ∧ predict_tail kg rules subject relation k
            = (agg_sorted.take k).map (fun p => (p.1, p.2.headI))
        ∧ (predict_tail kg rules subject relation k).length
            = min k (prediction_candidates kg rules subject relation).length
        ∧ ∀ p ∈ predict_tail kg rules subject relation k,
            ∃ confs,
              (p.1, confs) ∈ prediction_candidates kg rules subject relation
                ∧ p.2 ∈ confs ∧ ∀ w ∈ confs, w ≤ p.2)
      ∧ predict_tail kgC8 rulesC8 ("a") ("r") 3
          = [("x", mkRat 9 10), ("y", mkRat 4 5)]
      ∧ mkRat 9 10 = 9 / 10 ∧ mkRat 4 5 = 4 / 5 := by
  refine ⟨?_, by decide, by norm_num [Rat.mkRat_eq_div],
    by norm_num [Rat.mkRat_eq_div]⟩
  intro kg rules subject relation k
  refine ⟨sort_desc (fun a b => pyListLt a.2 b.2)
      (prediction_aggregated k
        (prediction_candidates kg rules subject relation)),
    sort_desc_perm _ _,
    sort_desc_pairwise
      (fun a b : String × List ℚ => pyListLt a.2 b.2)
      (fun (a b : String × List ℚ) h => pyListLt_asymm a.2 b.2 h)
      (fun (a b c : String × List ℚ) h1 h2 =>
        pyListLt_negtrans a.2 b.2 c.2 h1 h2) _,
    rfl, ?_, ?_⟩
  · rw [predict_tail, List.length_map, List.length_take,
      (sort_desc_perm _ _).length_eq, prediction_aggregated, List.length_map]
  · intro p hp
    rw [predict_tail] at hp
    obtain ⟨q, hq, hfq⟩ := List.mem_map.mp hp
    have hq2 := List.mem_of_mem_take hq
    have hq3 := (sort_desc_perm
      (fun (a b : String × List ℚ) => pyListLt a.2 b.2) _).mem_iff.mp hq2
    rw [prediction_aggregated] at hq3
    obtain ⟨e, he, heq⟩ := List.mem_map.mp hq3
    have hne : e.2 ≠ ([] : List ℚ) :=
      prediction_candidates_snd_ne_nil kg rules subject relation e he
    have hsne : sort_desc (fun a b : ℚ => decide (a < b)) e.2 ≠ [] := by
      intro h0
      apply hne
      have hl := (sort_desc_perm (fun a b : ℚ => decide (a < b)) e.2).length_eq
      rw [h0] at hl
      exact (List.eq_nil_of_length_eq_zero hl.symm)
    obtain ⟨hmem, hdom⟩ := sort_desc_headI_max e.2 hne
    have hp1 : p.1 = e.1 := by rw [← hfq, ← heq]
    have hp2 : p.2 = (sort_desc (fun a b : ℚ => decide (a < b)) e.2).headI := by
      rw [← hfq, ← heq]
      exact headI_append_ne hsne
    refine ⟨e.2, ?_, ?_, ?_⟩
    · rw [hp1, Prod.mk.eta]
      exact he
    · rw [hp2]
      exact hmem
    · intro w hw
      rw [hp2]
      exact hdom w hw

/-
Embedding of the span bookkeeping of src/algorithm/rule_learning.py
(`AnyBURL`, lines 85-96).  The rule dictionaries `R_s` and `global_rules`
are association lists in insertion order; `R_s[str(rule)] = rule` and
`dict.update` overwrite an existing key in place and append a new key.
-/

def dict_get {α : Type} (d : List (String × α)) (k : String) : Option α :=
  (d.find? (fun p => p.1 == k)).map Prod.snd

def dict_set {α : Type} : List (String × α) → String → α →
    List (String × α)
  | [], k, v => [(k, v)]
  | (k0, v0) :: rest, k, v =>
    if k0 == k then (k0, v) :: rest else (k0, v0) :: dict_set rest k v

/-- `global_rules.update(R_s)`: assign every pair of `R_s`, in order. -/
def dict_update {α : Type} (G S : List (String × α)) : List (String × α) :=
  S.foldl (fun g p => dict_set g p.1 p.2) G

/-- The span dictionary `R_s` built up by `R_s[str(rule)] = rule` over the
span's sequence of (key, rule) insertions. -/
def build_span (l : List (String × GeneralizedRule)) :
    List (String × GeneralizedRule) :=
  l.foldl (fun d p => dict_set d p.1 p.2) []

/-- `len(common) / len(R_s)` with `common = set(R_s.keys()) ∩
set(global_rules.keys())`. -/
def span_saturation (R_s global_rules : List (String × GeneralizedRule)) :
    ℚ :=
  ((((R_s.map Prod.fst).toFinset
      ∩ (global_rules.map Prod.fst).toFinset).card : ℚ))
    / (R_s.length : ℚ)

/-- The end-of-span step (lines 84-93): `saturation = 0.0`; if `R_s` is
non-empty, `saturation` becomes `|keys(R_s) ∩ keys(global_rules)| /
len(R_s)` and `n` is incremented exactly when it exceeds `sat`; finally
`global_rules.update(R_s)`.  Returns the new `n`, the computed saturation
and the merged global map. -/
def span_saturation_step (global_rules R_s : List (String × GeneralizedRule))
    (n : Nat) (sat : ℚ) : Nat × ℚ × List (String × GeneralizedRule) :=
  if R_s.isEmpty then (n, 0, dict_update global_rules R_s)
  else
    (if sat < span_saturation R_s global_rules then n + 1 else n,
      span_saturation R_s global_rules,
      dict_update global_rules R_s)

theorem mem_keys_dict_set {α : Type} (k : String) (v : α) (a : String) :
    ∀ d : List (String × α),
      a ∈ (dict_set d k v).map Prod.fst ↔ a = k ∨ a ∈ d.map Prod.fst := by
  intro d
  induction d with
  | nil => simp [dict_set]
  | cons p rest ih =>
    obtain ⟨k0, v0⟩ := p
    rw [dict_set]
    by_cases h : (k0 == k) = true
    · rw [if_pos h]
      have hk : k0 = k := by simpa using h
      subst hk
      simp
    · rw [if_neg h]
      simp only [List.map_cons, List.mem_cons, ih]
      tauto

theorem keys_nodup_dict_set {α : Type} (k : String) (v : α) :
    ∀ d : List (String × α), (d.map Prod.fst).Nodup →
      ((dict_set d k v).map Prod.fst).Nodup := by
  intro d
  induction d with
  | nil => intro _; simp [dict_set]
  | cons p rest ih =>
    intro h
    obtain ⟨k0, v0⟩ := p
    rw [List.map_cons, List.nodup_cons] at h
    rw [dict_set]
    by_cases hk : (k0 == k) = true
    · rw [if_pos hk]
      rw [List.map_cons, List.nodup_cons]
      exact h
    · rw [if_neg hk]
      rw [List.map_cons, List.nodup_cons]
      constructor
      · intro hmem
        rcases (mem_keys_dict_set k v k0 rest).mp hmem with rfl | hmem2
        · exact absurd (by simp) hk
        · exact h.1 hmem2
      · exact ih h.2

theorem build_span_keys_nodup (l : List (String × GeneralizedRule)) :
    ((build_span l).map Prod.fst).Nodup := by
  have haux : ∀ (m : List (String × GeneralizedRule))
      (d : List (String × GeneralizedRule)), (d.map Prod.fst).Nodup →
      ((m.foldl (fun d p => dict_set d p.1 p.2) d).map Prod.fst).Nodup := by
    intro m
    induction m with
    | nil => intro d h; exact h
    | cons p rest ih =>
      intro d h
      exact ih _ (keys_nodup_dict_set p.1 p.2 d h)
  exact haux l [] (by simp)

theorem dict_get_cons2 {α : Type} (k0 : String) (v0 : α)
    (rest : List (String × α)) (k : String) :
    dict_get ((k0, v0) :: rest) k
      = if k0 == k then some v0 else dict_get rest k := by
  by_cases h : (k0 == k) = true
  · rw [if_pos h, dict_get, List.find?_cons_of_pos _ (by exact h)]
    rfl
  · rw [if_neg h, dict_get,
      List.find?_cons_of_neg _ (by simpa using h)]
    rfl

theorem dict_get_eq_none {α : Type} (k : String) :
    ∀ d : List (String × α), k ∉ d.map Prod.fst → dict_get d k = none := by
  intro d
  induction d with
  | nil => intro _; rfl
  | cons p rest ih =>
    intro h
    obtain ⟨k0, v0⟩ := p
    rw [List.map_cons, List.mem_cons] at h
    push_neg at h
    rw [dict_get_cons2]
    rw [if_neg (by simpa using Ne.symm h.1)]
    exact ih h.2

theorem dict_get_set_self {α : Type} (k : String) (v : α) :
    ∀ d : List (String × α), dict_get (dict_set d k v) k = some v := by
  intro d
  induction d with
  | nil => simp [dict_set, dict_get, List.find?]
  | cons p rest ih =>
    obtain ⟨k0, v0⟩ := p
    rw [dict_set]
    by_cases h : (k0 == k) = true
    · rw [if_pos h, dict_get_cons2, if_pos h]
    · rw [if_neg h, dict_get_cons2, if_neg h]
      exact ih

theorem dict_get_set_other {α : Type} (k : String) (v : α) (a : String)
    (hak : a ≠ k) :
    ∀ d : List (String × α), dict_get (dict_set d k v) a = dict_get d a := by
  intro d
  induction d with
  | nil =>
    rw [dict_set, dict_get_cons2, if_neg (by simpa using Ne.symm hak)]
  | cons p rest ih =>
    obtain ⟨k0, v0⟩ := p
    rw [dict_set]
    by_cases h : (k0 == k) = true
    · rw [if_pos h, dict_get_cons2, dict_get_cons2]
      have hk : k0 = k := by simpa using h
      subst hk
      rw [if_neg (by simpa using Ne.symm hak),
        if_neg (by simpa using Ne.symm hak)]
    · rw [if_neg h, dict_get_cons2, dict_get_cons2, ih]

theorem dict_get_update {α : Type} (k : String) :
    ∀ (S G : List (String × α)), (S.map Prod.fst).Nodup →
      dict_get (dict_update G S) k
        = (dict_get S k).orElse (fun _ => dict_get G k) := by
  intro S
  induction S with
  | nil => intro G _; rfl
  | cons p rest ih =>
    intro G hS
    obtain ⟨k0, v0⟩ := p
    rw [List.map_cons, List.nodup_cons] at hS
    have hstep : dict_update G ((k0, v0) :: rest)
        = dict_update (dict_set G k0 v0) rest := rfl
    rw [hstep, ih _ hS.2, dict_get_cons2]
    by_cases h : (k0 == k) = true
    · rw [if_pos h]
      have hk : k0 = k := by simpa using h
      subst hk
      rw [dict_get_eq_none k0 rest hS.1, dict_get_set_self]
      rfl
    · rw [if_neg h]
      have hk : k ≠ k0 := by
        intro hkk
        exact absurd (by simp [hkk]) h
      rw [dict_get_set_other k0 v0 k (by exact hk)]

/-- C7.  At the end of every controller span, with `S` the span dictionary
built from the span's insertions and `G` the global rule map as of the
start of the span: the path length `n` increases by exactly 1 iff `S` is
non-empty and `|keys(S) ∩ keys(G)| / |keys(S)|` exceeds `sat`, and is
unchanged otherwise (the saturation reported for an empty `S` is 0); the
keys of `S` are pairwise distinct, so `len(S)` is `|keys(S)|`; and the
merged map returned looks up every key in `S` first (last writer wins) and
falls back to `G`. -/
theorem C7_saturation (l G : List (String × GeneralizedRule)) (n : Nat)
    (sat : ℚ) :
    ((span_saturation_step G (build_span l) n sat).1 = n + 1
        ↔ build_span l ≠ []
            ∧ sat < span_saturation (build_span l) G)
      ∧ ((span_saturation_step G (build_span l) n sat).1 = n + 1
          ∨ (span_saturation_step G (build_span l) n sat).1 = n)
      ∧ (build_span l = []
          → (span_saturation_step G (build_span l) n sat).2.1 = 0)
      ∧ (build_span l).length = ((build_span l).map Prod.fst).toFinset.card
      ∧ (∀ k, dict_get (span_saturation_step G (build_span l) n sat).2.2 k
            = (dict_get (build_span l) k).orElse
                (fun _ => dict_get G k)) := by
  have hnodup := build_span_keys_nodup l
  have hlen : (build_span l).length
      = ((build_span l).map Prod.fst).toFinset.card := by
    rw [List.toFinset_card_of_nodup hnodup, List.length_map]
  by_cases hS : build_span l = []
  · rw [hS]
    refine ⟨?_, Or.inr rfl, fun _ => rfl, by simp [hS] at hlen ⊢, fun k => rfl⟩
    constructor
    · intro h
      have hh : n = n + 1 := h
      omega
    · rintro ⟨h, -⟩
      exact absurd rfl h
  · have hE : (build_span l).isEmpty = false := by
      cases h : build_span l with
      | nil => exact absurd h hS
      | cons a t => rfl
    have hcond : ¬ ((build_span l).isEmpty = true) := by
      rw [hE]
      simp
    have hupd : ∀ k, dict_get (dict_update G (build_span l)) k
        = (dict_get (build_span l) k).orElse (fun _ => dict_get G k) := by
      intro k
      rw [dict_get_update k (build_span l) G (by
        simpa using hnodup)]
    by_cases hlt : sat < span_saturation (build_span l) G
    · refine ⟨?_, ?_, fun h => absurd h hS, hlen, ?_⟩
      · rw [span_saturation_step, if_neg hcond, if_pos hlt]
        exact ⟨fun _ => ⟨hS, hlt⟩, fun _ => rfl⟩
      · rw [span_saturation_step, if_neg hcond, if_pos hlt]
        exact Or.inl rfl
      · intro k
        rw [span_saturation_step, if_neg hcond]
        exact hupd k
    · refine ⟨?_, ?_, fun h => absurd h hS, hlen, ?_⟩
      · rw [span_saturation_step, if_neg hcond, if_neg hlt]
        constructor
        · intro h
          exact absurd h (by omega)
        · rintro ⟨-, h⟩
          exact absurd h hlt
      · rw [span_saturation_step, if_neg hcond, if_neg hlt]
        exact Or.inr rfl
      · intro k
        rw [span_saturation_step, if_neg hcond]
        exact hupd k
